import Mathlib

/-!
# muxcoder agent bus: configuration and path resolution

A shallow embedding of `tools/muxcoder-agent-bus/bus/config.go`.

Modelling conventions

* A Go `string` is a Lean `String`, read as its sequence of characters.
* The process environment is a function `Env`; `Getenv` returns the empty
  string for an unset variable, as `os.Getenv` does.
* The two package-level variables `KnownRoles` and `splitLeftWindows` are the
  fields of a `Config` record.  `builtin` is their value before `init` runs and
  `init env` their value after it.  Operations that read them take the record
  as an argument.
* The external command run by `tmuxVar` is a function `Tmux` from the argument
  list to the captured standard output, or `none` when running it fails.
* The Go library functions the file calls (`strings.Split`, `strings.TrimSpace`,
  `strings.Fields`, `filepath.Join`, `filepath.Clean`) are embedded with their
  Unix behaviour.
-/

namespace Muxcoder

/-! ## Library functions used by the source -/

/-- Go `unicode.IsSpace`: the Latin-1 cases tab, newline, vertical tab, form
feed, carriage return, space, U+0085, U+00A0, and beyond Latin-1 the characters
with the Unicode White_Space property. -/
def isSpace (c : Char) : Bool :=
  let n := c.toNat
  (9 ≤ n && n ≤ 13) || n = 0x20 || n = 0x85 || n = 0xA0 || n = 0x1680 ||
  (0x2000 ≤ n && n ≤ 0x200A) || n = 0x2028 || n = 0x2029 || n = 0x202F ||
  n = 0x205F || n = 0x3000

/-- Go `strings.TrimSpace`: the string without its leading and trailing white
space. -/
def TrimSpace (s : String) : String :=
  ⟨(s.data.dropWhile isSpace).rdropWhile isSpace⟩

/-- Segments of a character sequence around every occurrence of `sep`; a
sequence with `n` separators has `n + 1` segments. -/
def splitOnChar (sep : Char) : List Char → List (List Char)
  | [] => [[]]
  | c :: cs =>
    if c = sep then [] :: splitOnChar sep cs
    else
      match splitOnChar sep cs with
      | [] => [[c]]
      | seg :: segs => (c :: seg) :: segs

/-- Go `strings.Split(s, ",")`. -/
def SplitComma (s : String) : List String :=
  (splitOnChar ',' s.data).map String.mk

/-- Loop of `strings.Fields`: `cur` holds the characters of the field being
read, most recent first. -/
def fieldsAux : List Char → List Char → List (List Char)
  | [], cur => if cur = [] then [] else [cur.reverse]
  | c :: cs, cur =>
    if isSpace c then
      if cur = [] then fieldsAux cs [] else cur.reverse :: fieldsAux cs []
    else fieldsAux cs (c :: cur)

/-- Go `strings.Fields`: the maximal runs of characters that are not white
space. -/
def Fields (s : String) : List String :=
  (fieldsAux s.data []).map String.mk

/-- One path element processed by `filepath.Clean`.  `stack` holds the elements
written so far, last one first.  An empty element and `.` are skipped; `..`
removes the last element written when there is one that is not itself `..`, is
dropped at the root of a rooted path, and is kept at the start of a relative
path; any other element is written. -/
def cleanStep (rooted : Bool) (stack : List (List Char)) (elem : List Char) :
    List (List Char) :=
  if elem = [] then stack
  else if elem = ['.'] then stack
  else if elem = ['.', '.'] then
    match stack with
    | [] => if rooted then [] else [elem]
    | top :: rest =>
      if top ≠ ['.', '.'] then rest
      else if rooted then stack
      else elem :: stack
  else elem :: stack

/-- Go `filepath.Clean` on Unix, on character sequences. -/
def cleanChars (path : List Char) : List Char :=
  let rooted := path.head? = some '/'
  let stack := (splitOnChar '/' path).foldl (cleanStep rooted) []
  let out := (if rooted then ['/'] else []) ++ List.intercalate ['/'] stack.reverse
  if out = [] then ['.'] else out

/-- Go `filepath.Clean` on Unix. -/
def Clean (path : String) : String :=
  ⟨cleanChars path.data⟩

/-- Go `filepath.Join`: the elements from the first non-empty one on are joined
with `/` and the result is cleaned; with no non-empty element the result is the
empty string. -/
def Join (elems : List String) : String :=
  match elems.dropWhile (fun e => e = "") with
  | [] => ""
  | rest => Clean ("/".intercalate rest)

/-! ## Environment and external command -/

/-- Process environment: the value of a variable, `none` when it is unset. -/
abbrev Env := String → Option String

/-- Go `os.Getenv`: the value of the variable, empty when it is unset. -/
def Getenv (env : Env) (key : String) : String :=
  (env key).getD ""

/-- Outcome of `exec.Command("tmux", args...).Output()`: the standard output,
or `none` when the command cannot be run or exits with a non-zero status. -/
abbrev Tmux := List String → Option String

/-! ## Package state -/

/-- Go `map[string]bool`, as a list of entries with distinct keys. -/
abbrev BoolMap := List (String × Bool)

/-- Map assignment `m[k] = v`. -/
def BoolMap.set (m : BoolMap) (k : String) (v : Bool) : BoolMap :=
  (k, v) :: m.filter (fun e => e.1 ≠ k)

/-- Map index expression `m[k]`, false for an absent key. -/
def BoolMap.get (m : BoolMap) (k : String) : Bool :=
  (m.lookup k).getD false

/-- The package-level variables. -/
structure Config where
  KnownRoles : List String
  splitLeftWindows : BoolMap
  deriving DecidableEq

/-- Initial value of `KnownRoles`. -/
def builtinRoles : List String :=
  ["edit", "build", "test", "review", "deploy", "run", "commit", "analyze"]

/-- Initial value of `splitLeftWindows`. -/
def builtinSplitLeft : BoolMap :=
  [("edit", true), ("analyze", true), ("commit", true)]

/-- Package state before `init` runs. -/
def builtin : Config :=
  { KnownRoles := builtinRoles, splitLeftWindows := builtinSplitLeft }

/-- Scan of `IsKnownRole` over a registry. -/
def isKnownIn : List String → String → Bool
  | [], _ => false
  | r :: rs, role => if r = role then true else isKnownIn rs role

/-- Source function `IsKnownRole`: linear scan of the registry. -/
def IsKnownRole (cfg : Config) (role : String) : Bool :=
  isKnownIn cfg.KnownRoles role

/-- Body of the registry loop of `init` for one segment of the variable. -/
def extendStep (roles : List String) (seg : String) : List String :=
  let r := TrimSpace seg
  if r ≠ "" ∧ ¬ isKnownIn roles r = true then roles ++ [r] else roles

/-- Registry loop of `init` over the segments of the variable. -/
def extendRoles (roles : List String) (segs : List String) : List String :=
  segs.foldl extendStep roles

/-- Split-left loop of `init` over the tokens of the variable. -/
def fillSplitLeft (m : BoolMap) (tokens : List String) : BoolMap :=
  tokens.foldl (fun acc w => acc.set w true) m

/-- Source function `init`: extend the registry from `MUXCODER_ROLES`, then replace the
split-left map from `MUXCODER_SPLIT_LEFT`. -/
def init (env : Env) : Config :=
  let extra := Getenv env "MUXCODER_ROLES"
  let roles :=
    if extra ≠ "" then extendRoles builtinRoles (SplitComma extra) else builtinRoles
  let v := Getenv env "MUXCODER_SPLIT_LEFT"
  let split :=
    if v ≠ "" then fillSplitLeft [] (Fields v) else builtinSplitLeft
  { KnownRoles := roles, splitLeftWindows := split }

/-- Source function `IsSplitLeft`: map lookup. -/
def IsSplitLeft (cfg : Config) (window : String) : Bool :=
  cfg.splitLeftWindows.get window

/-! ## Identity resolution -/

/-- Source function `tmuxVar`: argument list handed to the tmux command. -/
def tmuxArgs (env : Env) (format : String) : List String :=
  let args := ["display-message"]
  let pane := Getenv env "TMUX_PANE"
  let args := if pane ≠ "" then args ++ ["-t", pane] else args
  args ++ ["-p", format]

/-- Source function `tmuxVar`: trimmed output of the tmux query, empty when it fails. -/
def tmuxVar (env : Env) (tmux : Tmux) (format : String) : String :=
  match tmux (tmuxArgs env format) with
  | none => ""
  | some out => TrimSpace out

/-- Source function `BusSession`. -/
def BusSession (env : Env) (tmux : Tmux) : String :=
  if Getenv env "BUS_SESSION" ≠ "" then Getenv env "BUS_SESSION"
  else if Getenv env "SESSION" ≠ "" then Getenv env "SESSION"
  else if tmuxVar env tmux "#S" ≠ "" then tmuxVar env tmux "#S"
  else "default"

/-- Source function `BusRole`. -/
def BusRole (env : Env) (tmux : Tmux) : String :=
  if Getenv env "AGENT_ROLE" ≠ "" then Getenv env "AGENT_ROLE"
  else if Getenv env "BUS_ROLE" ≠ "" then Getenv env "BUS_ROLE"
  else if tmuxVar env tmux "#W" ≠ "" then tmuxVar env tmux "#W"
  else "unknown"

/-! ## Paths -/

/-- Source function `BusDir`. -/
def BusDir (session : String) : String :=
  "/tmp/muxcoder-bus-" ++ session

/-- Source function `InboxPath`. -/
def InboxPath (session role : String) : String :=
  Join [BusDir session, "inbox", role ++ ".jsonl"]

/-- Source function `LockPath`. -/
def LockPath (session role : String) : String :=
  Join [BusDir session, "lock", role ++ ".lock"]

/-- Source function `LogPath`. -/
def LogPath (session : String) : String :=
  Join [BusDir session, "log.jsonl"]

/-- Source function `MemoryDir`. -/
def MemoryDir (env : Env) : String :=
  if Getenv env "BUS_MEMORY_DIR" ≠ "" then Getenv env "BUS_MEMORY_DIR"
  else Join [".muxcoder", "memory"]

/-- Source function `MemoryPath`. -/
def MemoryPath (env : Env) (role : String) : String :=
  if role = "shared" then Join [MemoryDir env, "shared.md"]
  else Join [MemoryDir env, role ++ ".md"]

/-- Source function `TriggerFile`. -/
def TriggerFile (session : String) : String :=
  "/tmp/muxcoder-analyze-" ++ session ++ ".trigger"

/-- Source function `AgentPane`. -/
def AgentPane (_window : String) : String := "1"

/-- Source function `PaneTarget`. -/
def PaneTarget (session window : String) : String :=
  session ++ ":" ++ window ++ "." ++ AgentPane window

/-! ## Calls as state transitions -/

/-- Registry part of `init` started from an arbitrary registry: the guard on an
empty `MUXCODER_ROLES` and the loop over its segments. -/
def initRoles (roles : List String) (extra : String) : List String :=
  if extra ≠ "" then extendRoles roles (SplitComma extra) else roles

/-- Exported and internal functions of the package that can be called once
`init` has run, with their arguments. -/
inductive Op where
  | isKnownRole (role : String)
  | isSplitLeft (window : String)
  | agentPane (window : String)
  | paneTarget (session window : String)
  | busSession
  | busRole
  | busDir (session : String)
  | inboxPath (session role : String)
  | lockPath (session role : String)
  | logPath (session : String)
  | memoryDir
  | memoryPath (role : String)
  | triggerFile (session : String)
  | tmuxVar (format : String)
  deriving DecidableEq

/-- Value returned by a call. -/
inductive Value where
  | bool (b : Bool)
  | str (s : String)
  deriving DecidableEq

/-- One call of a package function in the package state `cfg`, under the
environment and tmux behaviour of that moment: the package state after the call
and the returned value.  No function body assigns to `KnownRoles` or
`splitLeftWindows`, so the state is handed on as it is. -/
def call (cfg : Config) (env : Env) (tmux : Tmux) : Op → Config × Value
  | Op.isKnownRole role => (cfg, Value.bool (IsKnownRole cfg role))
  | Op.isSplitLeft window => (cfg, Value.bool (IsSplitLeft cfg window))
  | Op.agentPane window => (cfg, Value.str (AgentPane window))
  | Op.paneTarget session window => (cfg, Value.str (PaneTarget session window))
  | Op.busSession => (cfg, Value.str (BusSession env tmux))
  | Op.busRole => (cfg, Value.str (BusRole env tmux))
  | Op.busDir session => (cfg, Value.str (BusDir session))
  | Op.inboxPath session role => (cfg, Value.str (InboxPath session role))
  | Op.lockPath session role => (cfg, Value.str (LockPath session role))
  | Op.logPath session => (cfg, Value.str (LogPath session))
  | Op.memoryDir => (cfg, Value.str (MemoryDir env))
  | Op.memoryPath role => (cfg, Value.str (MemoryPath env role))
  | Op.triggerFile session => (cfg, Value.str (TriggerFile session))
  | Op.tmuxVar format => (cfg, Value.str (tmuxVar env tmux format))

/-- Package state after a sequence of calls, each made under its own
environment and tmux behaviour. -/
def runCalls (cfg : Config) (calls : List (Env × Tmux × Op)) : Config :=
  calls.foldl (fun c step => (call c step.1 step.2.1 step.2.2).1) cfg

/-! ## Specification-side definitions -/

/-- Specification of `MemoryPath` without the branch for `shared`: the file
`role.md` joined under the memory directory. -/
def MemoryPathPlain (env : Env) (role : String) : String :=
  Join [MemoryDir env, role ++ ".md"]

/-- Two environments agree on every variable other than `MUXCODER_ROLES` and
`MUXCODER_SPLIT_LEFT`. -/
def AgreeOffStartup (env1 env2 : Env) : Prop :=
  ∀ key, key ≠ "MUXCODER_ROLES" → key ≠ "MUXCODER_SPLIT_LEFT" → env1 key = env2 key


/-- Elements of a list in the order of their first occurrence, each once. -/
def firstOccurrences : List String → List String
  | [] => []
  | x :: xs => x :: (firstOccurrences xs).filter (fun y => y ≠ x)

/-- Roles named by a value of `MUXCODER_ROLES`: the trimmed comma-separated
segments that are non-empty. -/
def candidateRoles (extra : String) : List String :=
  ((SplitComma extra).map TrimSpace).filter (fun r => r ≠ "")

/-- First value of a list of layers that is present and non-empty; empty when
there is none. -/
def firstNonEmpty : List (Option String) → String
  | [] => ""
  | none :: rest => firstNonEmpty rest
  | some v :: rest => if v ≠ "" then v else firstNonEmpty rest

/-- A variable is unset or set to the empty string. -/
def UnsetOrEmpty (env : Env) (key : String) : Prop :=
  env key = none ∨ env key = some ""

/-- The string `s` begins with `p`. -/
def BeginsWith (p s : String) : Prop :=
  p.data <+: s.data

/-- The string has no leading and no trailing white space. -/
def NoOuterSpace (s : String) : Prop :=
  (∀ c, s.data.head? = some c → isSpace c = false) ∧
  (∀ c, s.data.getLast? = some c → isSpace c = false)

/-- Well-formedness of a registry: no duplicate, no empty entry, no entry with
outer white space. -/
def RegistryOk (roles : List String) : Prop :=
  roles.Nodup ∧ "" ∉ roles ∧ ∀ r ∈ roles, NoOuterSpace r

/-- Path element that `filepath.Clean` writes: neither empty nor `.`. -/
def realElem (e : List Char) : Bool :=
  e ≠ [] && e ≠ ['.']

/-- The string `t` is `s` without its leading and trailing white space: `s` is
`t` between two runs of white space, and `t` neither begins nor ends with white
space. -/
def TrimmedOf (t s : String) : Prop :=
  ∃ l r : List Char, s.data = l ++ t.data ++ r ∧
    (∀ c ∈ l, isSpace c = true) ∧ (∀ c ∈ r, isSpace c = true) ∧ NoOuterSpace t

/-- The sequence `t` is a maximal run of characters of `l` that are not white
space: it is non-empty and free of white space, what precedes it in `l` is
empty or ends with white space, and what follows it is empty or begins with
white space. -/
def IsRunOf (t l : List Char) : Prop :=
  ∃ pre post : List Char, l = pre ++ t ++ post ∧ t ≠ [] ∧
    (∀ c ∈ t, isSpace c = false) ∧
    (∀ c, pre.getLast? = some c → isSpace c = true) ∧
    (∀ c, post.head? = some c → isSpace c = true)

/-- The string `w` is one of the white-space-separated tokens of `v`. -/
def IsTokenOf (w v : String) : Prop :=
  IsRunOf w.data v.data

/-- Elements of a string between its `/` separators. -/
def pathElems (s : String) : List String :=
  (splitOnChar '/' s.data).map String.mk

instance (env : Env) (key : String) : Decidable (UnsetOrEmpty env key) := by
  unfold UnsetOrEmpty; infer_instance

instance (p s : String) : Decidable (BeginsWith p s) := by
  unfold BeginsWith; infer_instance


/-! ## Basic facts about strings and the library functions -/

theorem str_ne_empty_iff (s : String) : s ≠ "" ↔ s.data ≠ [] := by
  constructor
  · intro h hd
    exact h (String.ext hd)
  · intro h hs
    exact h (by rw [hs])

theorem getenv_eq_empty_iff (env : Env) (key : String) :
    Getenv env key = "" ↔ UnsetOrEmpty env key := by
  unfold Getenv UnsetOrEmpty
  cases h : env key with
  | none => simp
  | some v => simp

theorem trimSpace_empty : TrimSpace "" = "" := by decide

theorem splitComma_empty : SplitComma "" = [""] := by decide

/-- The embedding of `filepath.Clean` agrees with the cases of the Go
documentation and test table for Unix paths. -/
theorem clean_cases :
    Clean "" = "." ∧ Clean "/" = "/" ∧ Clean "abc" = "abc" ∧
    Clean "abc//def//ghi" = "abc/def/ghi" ∧ Clean "abc/" = "abc" ∧
    Clean "abc/./def" = "abc/def" ∧ Clean "/./abc/def" = "/abc/def" ∧
    Clean "abc/def/ghi/../jkl" = "abc/def/jkl" ∧ Clean "abc/def/.." = "abc" ∧
    Clean "abc/def/../.." = "." ∧ Clean "/abc/def/../.." = "/" ∧
    Clean "abc/def/../../.." = ".." ∧ Clean "/abc/def/../../.." = "/" ∧
    Clean "abc/def/../../../ghi/jkl/../../../mno" = "../../mno" ∧
    Clean "/../abc" = "/abc" ∧ Clean "../../abc" = "../../abc" ∧
    Clean "abc/./../def" = "def" ∧ Clean "abc//./../def" = "def" ∧
    Clean "abc/../../././../def" = "../../def" ∧ Clean "//abc" = "/abc" := by
  decide

/-- The embedding of `filepath.Join` agrees with cases of the Go test table. -/
theorem join_cases :
    Join [] = "" ∧ Join [""] = "" ∧ Join ["", ""] = "" ∧ Join ["a"] = "a" ∧
    Join ["a", ""] = "a" ∧ Join ["", "a"] = "a" ∧ Join ["a", "b"] = "a/b" ∧
    Join ["a/", "b"] = "a/b" ∧ Join ["/", "a"] = "/a" ∧ Join ["/", ""] = "/" ∧
    Join ["a", "", "b"] = "a/b" ∧ Join [".muxcoder", "memory"] = ".muxcoder/memory" := by
  decide

/-- The embeddings of `strings.Split`, `strings.TrimSpace` and `strings.Fields`
on sample inputs. -/
theorem strings_cases :
    SplitComma "a,, b ,c," = ["a", "", " b ", "c", ""] ∧
    SplitComma "," = ["", ""] ∧
    TrimSpace " \t a b \n" = "a b" ∧ TrimSpace " \t " = "" ∧
    Fields "  a b\t c \n" = ["a", "b", "c"] ∧ Fields " \n " = [] := by
  decide

theorem trimSpace_noOuterSpace (s : String) : NoOuterSpace (TrimSpace s) := by
  constructor
  · intro c hc
    have hpre : (s.data.dropWhile isSpace).rdropWhile isSpace <+: s.data.dropWhile isSpace :=
      List.rdropWhile_prefix isSpace _
    obtain ⟨t, ht⟩ := hpre
    simp only [TrimSpace] at hc
    cases hr : (s.data.dropWhile isSpace).rdropWhile isSpace with
    | nil => rw [hr] at hc; simp at hc
    | cons a as =>
      rw [hr] at hc ht
      simp at hc
      subst hc
      have h := List.head?_dropWhile_not isSpace s.data
      rw [← ht] at h
      simpa using h
  · intro c hc
    simp only [TrimSpace] at hc
    by_cases hne : (s.data.dropWhile isSpace).rdropWhile isSpace = []
    · rw [hne] at hc; simp at hc
    · have h := List.rdropWhile_last_not isSpace (s.data.dropWhile isSpace) hne
      rw [List.getLast?_eq_getLast _ hne] at hc
      simp at hc
      rw [hc] at h
      simpa using h

theorem isKnownIn_iff (roles : List String) (role : String) :
    isKnownIn roles role = true ↔ role ∈ roles := by
  induction roles with
  | nil => simp [isKnownIn]
  | cons r rs ih =>
    by_cases h : r = role
    · simp [isKnownIn, h]
    · have h2 : ¬ role = r := fun e => h e.symm
      simp [isKnownIn, h, h2, ih]


/-! ## The role registry -/

theorem mem_extendStep (roles : List String) (seg r : String) :
    r ∈ extendStep roles seg ↔ r ∈ roles ∨ (r ≠ "" ∧ r = TrimSpace seg) := by
  unfold extendStep
  by_cases h : TrimSpace seg ≠ "" ∧ ¬ isKnownIn roles (TrimSpace seg) = true
  · rw [if_pos h]
    simp only [List.mem_append, List.mem_singleton]
    constructor
    · rintro (hr | hr)
      · exact Or.inl hr
      · exact Or.inr ⟨hr ▸ h.1, hr⟩
    · rintro (hr | ⟨_, hr⟩)
      · exact Or.inl hr
      · exact Or.inr hr
  · rw [if_neg h]
    constructor
    · exact Or.inl
    · rintro (hr | ⟨hne, hr⟩)
      · exact hr
      · subst hr
        by_contra hmem
        exact h ⟨hne, fun hk => hmem ((isKnownIn_iff _ _).1 hk)⟩

theorem mem_extendRoles (segs roles : List String) (r : String) :
    r ∈ extendRoles roles segs ↔
      r ∈ roles ∨ (r ≠ "" ∧ ∃ seg ∈ segs, r = TrimSpace seg) := by
  induction segs generalizing roles with
  | nil => simp [extendRoles]
  | cons s ss ih =>
    have hstep : extendRoles roles (s :: ss) = extendRoles (extendStep roles s) ss := rfl
    rw [hstep, ih, mem_extendStep]
    constructor
    · rintro ((hr | ⟨hne, hr⟩) | ⟨hne, seg, hseg, hr⟩)
      · exact Or.inl hr
      · exact Or.inr ⟨hne, s, List.mem_cons_self _ _, hr⟩
      · exact Or.inr ⟨hne, seg, List.mem_cons_of_mem _ hseg, hr⟩
    · rintro (hr | ⟨hne, seg, hseg, hr⟩)
      · exact Or.inl (Or.inl hr)
      · rcases List.mem_cons.1 hseg with rfl | hseg
        · exact Or.inl (Or.inr ⟨hne, hr⟩)
        · exact Or.inr ⟨hne, seg, hseg, hr⟩

/-- Registry after `init` in terms of the registry loop: the guard on an empty
variable changes nothing, since the loop over the single empty segment appends
nothing. -/
theorem init_knownRoles (env : Env) :
    (init env).KnownRoles =
      extendRoles builtinRoles (SplitComma (Getenv env "MUXCODER_ROLES")) := by
  unfold init
  by_cases h : Getenv env "MUXCODER_ROLES" = ""
  · simp only [h, ne_eq, not_true_eq_false, if_false]
    decide
  · simp only [ne_eq, h, not_false_eq_true, if_true]

theorem registryOk_builtin : RegistryOk builtinRoles := by
  refine ⟨by decide, by decide, ?_⟩
  intro r hr
  have h : TrimSpace r = r := by
    revert r
    decide
  rw [← h]
  exact trimSpace_noOuterSpace r

theorem registryOk_extendStep (roles : List String) (seg : String)
    (h : RegistryOk roles) : RegistryOk (extendStep roles seg) := by
  unfold extendStep
  by_cases hc : TrimSpace seg ≠ "" ∧ ¬ isKnownIn roles (TrimSpace seg) = true
  · rw [if_pos hc]
    obtain ⟨hnd, hemp, hsp⟩ := h
    have hnot : TrimSpace seg ∉ roles := fun hm => hc.2 ((isKnownIn_iff _ _).2 hm)
    refine ⟨?_, ?_, ?_⟩
    · rw [List.nodup_append]
      refine ⟨hnd, List.nodup_singleton _, ?_⟩
      intro a ha hb
      rw [List.mem_singleton] at hb
      exact hnot (hb ▸ ha)
    · intro hm
      rcases List.mem_append.1 hm with hm | hm
      · exact hemp hm
      · exact hc.1 (List.mem_singleton.1 hm).symm
    · intro r hr
      rcases List.mem_append.1 hr with hr | hr
      · exact hsp r hr
      · rw [List.mem_singleton.1 hr]
        exact trimSpace_noOuterSpace seg
  · rw [if_neg hc]
    exact h

theorem registryOk_extendRoles (segs roles : List String)
    (h : RegistryOk roles) : RegistryOk (extendRoles roles segs) := by
  induction segs generalizing roles with
  | nil => exact h
  | cons s ss ih => exact ih _ (registryOk_extendStep roles s h)

theorem firstOccurrences_filter (p : String → Bool) (l : List String) :
    firstOccurrences (l.filter p) = (firstOccurrences l).filter p := by
  induction l with
  | nil => rfl
  | cons x xs ih =>
    by_cases hx : p x = true
    · simp only [List.filter_cons_of_pos hx, firstOccurrences, ih, List.filter_filter]
      congr 1
      apply List.filter_congr
      intro a _
      exact Bool.and_comm _ _
    · simp only [List.filter_cons_of_neg hx, firstOccurrences, ih, List.filter_filter]
      apply List.filter_congr
      intro a _
      by_cases ha : a = x
      · subst ha
        simp [hx]
      · simp [ha]

theorem mem_firstOccurrences (l : List String) (r : String) :
    r ∈ firstOccurrences l ↔ r ∈ l := by
  induction l with
  | nil => simp [firstOccurrences]
  | cons x xs ih =>
    simp only [firstOccurrences, List.mem_cons, List.mem_filter, ih]
    by_cases h : r = x
    · simp [h]
    · simp [h]

theorem firstOccurrences_nodup (l : List String) : (firstOccurrences l).Nodup := by
  induction l with
  | nil => simp [firstOccurrences]
  | cons x xs ih =>
    simp only [firstOccurrences, List.nodup_cons, List.mem_filter]
    exact ⟨by simp, ih.filter _⟩

theorem firstOccurrences_sublist (l : List String) : (firstOccurrences l).Sublist l := by
  induction l with
  | nil => simp [firstOccurrences]
  | cons x xs ih =>
    simp only [firstOccurrences]
    exact ((List.filter_sublist _).trans ih).cons₂ x

theorem extendRoles_eq (segs roles : List String) :
    extendRoles roles segs =
      roles ++ firstOccurrences
        (((segs.map TrimSpace).filter (fun r => r ≠ "")).filter (fun r => r ∉ roles)) := by
  induction segs generalizing roles with
  | nil => simp [extendRoles, firstOccurrences]
  | cons s ss ih =>
    have hstep : extendRoles roles (s :: ss) = extendRoles (extendStep roles s) ss := rfl
    rw [hstep, ih]
    unfold extendStep
    by_cases he : TrimSpace s = ""
    · simp [he]
    · by_cases hm : TrimSpace s ∈ roles
      · have hk : isKnownIn roles (TrimSpace s) = true := (isKnownIn_iff _ _).2 hm
        simp [he, hk, hm]
      · have hk : ¬ isKnownIn roles (TrimSpace s) = true :=
          fun hk => hm ((isKnownIn_iff _ _).1 hk)
        have hcond : TrimSpace s ≠ "" ∧ ¬ isKnownIn roles (TrimSpace s) = true := ⟨he, hk⟩
        rw [if_pos hcond]
        simp only [List.map_cons]
        rw [List.filter_cons_of_pos (by simpa using he),
          List.filter_cons_of_pos (by simpa using hm)]
        simp only [firstOccurrences, List.append_assoc, List.singleton_append]
        congr 2
        rw [← firstOccurrences_filter]
        congr 1
        simp only [List.filter_filter]
        apply List.filter_congr
        intro a _
        by_cases ha : a = TrimSpace s
        · subst ha
          simp
        · simp [ha]


/-- C1: after initialization a role is known exactly when it is one of the
eight built-in roles, or it is non-empty and equals the white-space-trimmed
form of one of the comma-separated segments of `MUXCODER_ROLES`. -/
theorem isKnownRole_init_iff (env : Env) (r : String) :
    IsKnownRole (init env) r = true ↔
      r ∈ ["edit", "build", "test", "review", "deploy", "run", "commit", "analyze"] ∨
      (r ≠ "" ∧ ∃ seg ∈ SplitComma (Getenv env "MUXCODER_ROLES"), r = TrimSpace seg) := by
  unfold IsKnownRole
  rw [isKnownIn_iff, init_knownRoles, mem_extendRoles]
  rfl

/-- Witness for C1: with `MUXCODER_ROLES` set to ` foo ,edit` the role `foo` is
known after initialization. -/
theorem isKnownRole_init_iff_witness :
    IsKnownRole (init (fun k => if k = "MUXCODER_ROLES" then some " foo ,edit" else none))
      "foo" = true :=
  (isKnownRole_init_iff _ "foo").2 (Or.inr ⟨by decide, " foo ", by decide, by decide⟩)

/-- C2: for every value of `MUXCODER_ROLES` the registry after initialization
has no duplicate entry, no empty entry and no entry with leading or trailing
white space; every entry is built in or the trimmed form of a segment, and the
loop body leaves the registry alone for a segment whose trimmed form is empty or
already present and appends the trimmed form otherwise. -/
theorem registry_init_wellformed (env : Env) :
    (init env).KnownRoles.Nodup ∧
    "" ∉ (init env).KnownRoles ∧
    (∀ r ∈ (init env).KnownRoles, NoOuterSpace r) ∧
    (∀ r ∈ (init env).KnownRoles, r ∈ builtinRoles ∨
      ∃ seg ∈ SplitComma (Getenv env "MUXCODER_ROLES"), r = TrimSpace seg) ∧
    (∀ (roles : List String) (seg : String),
      extendStep roles seg =
        if TrimSpace seg = "" ∨ TrimSpace seg ∈ roles then roles
        else roles ++ [TrimSpace seg]) := by
  have hok : RegistryOk (init env).KnownRoles := by
    rw [init_knownRoles]
    exact registryOk_extendRoles _ _ registryOk_builtin
  refine ⟨hok.1, hok.2.1, hok.2.2, ?_, ?_⟩
  · intro r hr
    rw [init_knownRoles, mem_extendRoles] at hr
    rcases hr with hr | ⟨_, hr⟩
    · exact Or.inl hr
    · exact Or.inr hr
  · intro roles seg
    unfold extendStep
    by_cases he : TrimSpace seg = ""
    · simp [he]
    · by_cases hm : TrimSpace seg ∈ roles
      · simp [he, hm, (isKnownIn_iff roles (TrimSpace seg)).2 hm]
      · have hk : ¬ isKnownIn roles (TrimSpace seg) = true :=
          fun hk => hm ((isKnownIn_iff _ _).1 hk)
        simp [he, hm, hk]

/-- Witness for C2: with `MUXCODER_ROLES` set to ` foo ,edit,,foo` the entry `foo`
of the registry has no outer white space. -/
theorem registry_init_wellformed_witness :
    NoOuterSpace "foo" :=
  (registry_init_wellformed
    (fun k => if k = "MUXCODER_ROLES" then some " foo ,edit,,foo" else none)).2.2.1
    "foo" (by decide)

/-! ## The split-left map -/

theorem lookup_filter_ne (m : BoolMap) (k w : String) (h : w ≠ k) :
    (m.filter (fun e => e.1 ≠ k)).lookup w = m.lookup w := by
  induction m with
  | nil => rfl
  | cons e es ih =>
    obtain ⟨a, b⟩ := e
    by_cases ha : a = k
    · subst ha
      have hne : (w == a) = false := by simpa using h
      simp only [List.filter_cons, List.lookup_cons, hne, ne_eq, not_true_eq_false,
        decide_False, Bool.false_eq_true, if_false]
      exact ih
    · by_cases hw : w = a
      · subst hw
        simp [List.filter_cons, List.lookup_cons, ha]
      · have hne : (w == a) = false := by simpa using hw
        simp only [List.filter_cons, List.lookup_cons, hne, ne_eq, ha, not_false_eq_true,
          decide_True, if_true]
        exact ih

theorem get_set (m : BoolMap) (k w : String) (v : Bool) :
    (m.set k v).get w = if w = k then v else m.get w := by
  unfold BoolMap.get BoolMap.set
  by_cases h : w = k
  · subst h
    simp [List.lookup_cons]
  · have hne : (w == k) = false := by simpa using h
    simp only [List.lookup_cons, hne, if_neg h]
    rw [lookup_filter_ne m k w h]

theorem get_fillSplitLeft (tokens : List String) (m : BoolMap) (w : String) :
    (fillSplitLeft m tokens).get w = true ↔ w ∈ tokens ∨ m.get w = true := by
  induction tokens generalizing m with
  | nil => simp [fillSplitLeft]
  | cons t ts ih =>
    have hstep : fillSplitLeft m (t :: ts) = fillSplitLeft (m.set t true) ts := rfl
    rw [hstep, ih, get_set]
    by_cases h : w = t
    · simp [h]
    · simp [h]

theorem fieldsAux_all_space (l : List Char) (h : ∀ c ∈ l, isSpace c = true) :
    fieldsAux l [] = [] := by
  induction l with
  | nil => rfl
  | cons c cs ih =>
    have hc : isSpace c = true := h c (List.mem_cons_self _ _)
    simp only [fieldsAux, hc, if_true]
    exact ih (fun d hd => h d (List.mem_cons_of_mem _ hd))

/-- Every field is non-empty and free of white space. -/
theorem fieldsAux_token (l cur : List Char) (hcur : ∀ c ∈ cur, isSpace c = false) :
    ∀ t ∈ fieldsAux l cur, t ≠ [] ∧ ∀ c ∈ t, isSpace c = false := by
  induction l generalizing cur with
  | nil =>
    intro t ht
    by_cases hc : cur = []
    · simp [fieldsAux, hc] at ht
    · simp only [fieldsAux, hc, if_false, List.mem_singleton] at ht
      subst ht
      exact ⟨by simpa using hc, fun c hm => hcur c (List.mem_reverse.1 hm)⟩
  | cons c cs ih =>
    intro t ht
    by_cases hs : isSpace c = true
    · by_cases hc : cur = []
      · simp only [fieldsAux, hs, hc, if_true] at ht
        exact ih [] (by simp) t ht
      · simp only [fieldsAux, hs, hc, if_true, if_false, List.mem_cons] at ht
        rcases ht with ht | ht
        · subst ht
          exact ⟨by simpa using hc, fun c hm => hcur c (List.mem_reverse.1 hm)⟩
        · exact ih [] (by simp) t ht
    · simp only [fieldsAux, hs] at ht
      refine ih (c :: cur) ?_ t ht
      intro d hd
      rcases List.mem_cons.1 hd with rfl | hd
      · simpa using hs
      · exact hcur d hd

theorem fields_token (v t : String) (ht : t ∈ Fields v) :
    t ≠ "" ∧ ∀ c ∈ t.data, isSpace c = false := by
  unfold Fields at ht
  obtain ⟨l, hl, rfl⟩ := List.mem_map.1 ht
  obtain ⟨h1, h2⟩ := fieldsAux_token v.data [] (by simp) l hl
  exact ⟨(str_ne_empty_iff _).2 h1, h2⟩

theorem get_builtinSplitLeft (w : String) :
    builtinSplitLeft.get w = true ↔ w = "edit" ∨ w = "analyze" ∨ w = "commit" := by
  unfold BoolMap.get builtinSplitLeft
  by_cases h1 : w = "edit"
  · subst h1; simp [List.lookup_cons]
  · by_cases h2 : w = "analyze"
    · subst h2; simp [List.lookup_cons]
    · by_cases h3 : w = "commit"
      · subst h3; simp [List.lookup_cons]
      · have e1 : (w == "edit") = false := by simpa using h1
        have e2 : (w == "analyze") = false := by simpa using h2
        have e3 : (w == "commit") = false := by simpa using h3
        simp [List.lookup_cons, e1, e2, e3, h1, h2, h3]

/-- C5: with `MUXCODER_SPLIT_LEFT` unset or empty the built-in map is kept:
a window is split-left exactly when it is `edit`, `analyze` or `commit`, and
every other key yields false. -/
theorem isSplitLeft_builtin (env : Env) (h : UnsetOrEmpty env "MUXCODER_SPLIT_LEFT")
    (w : String) :
    (init env).splitLeftWindows =
      [("edit", true), ("analyze", true), ("commit", true)] ∧
    (IsSplitLeft (init env) w = true ↔ w = "edit" ∨ w = "analyze" ∨ w = "commit") ∧
    (w ≠ "edit" → w ≠ "analyze" → w ≠ "commit" → IsSplitLeft (init env) w = false) := by
  have hg : Getenv env "MUXCODER_SPLIT_LEFT" = "" := (getenv_eq_empty_iff _ _).2 h
  have hm : (init env).splitLeftWindows = builtinSplitLeft := by
    unfold init
    simp [hg]
  have hiff : IsSplitLeft (init env) w = true ↔ w = "edit" ∨ w = "analyze" ∨ w = "commit" := by
    unfold IsSplitLeft
    rw [hm]
    exact get_builtinSplitLeft w
  refine ⟨hm, hiff, ?_⟩
  intro h1 h2 h3
  cases hb : IsSplitLeft (init env) w with
  | false => rfl
  | true =>
    rcases hiff.1 hb with e | e | e
    · exact absurd e h1
    · exact absurd e h2
    · exact absurd e h3

/-- Witness for C5 at an environment with the variable set to the empty
string. -/
theorem isSplitLeft_builtin_witness :
    UnsetOrEmpty (fun k => if k = "MUXCODER_SPLIT_LEFT" then some "" else none)
      "MUXCODER_SPLIT_LEFT" ∧
    (IsSplitLeft (init (fun k => if k = "MUXCODER_SPLIT_LEFT" then some "" else none))
      "build" = false) :=
  ⟨by decide,
   (isSplitLeft_builtin _ (by decide) "build").2.2 (by decide) (by decide) (by decide)⟩


/-! ## Session and role resolution -/

theorem tmuxVar_eq (env : Env) (tmux : Tmux) (format : String) :
    tmuxVar env tmux format = ((tmux (tmuxArgs env format)).map TrimSpace).getD "" := by
  unfold tmuxVar
  cases tmux (tmuxArgs env format) <;> rfl

/-- A chain of three optional layers and a non-empty default returns the first
layer that is present and non-empty. -/
theorem layers_eq (a b c : Option String) (d : String) (hd : d ≠ "") :
    (if a.getD "" ≠ "" then a.getD ""
      else if b.getD "" ≠ "" then b.getD ""
      else if c.getD "" ≠ "" then c.getD ""
      else d) = firstNonEmpty [a, b, c, some d] := by
  rcases a with _ | a <;> rcases b with _ | b <;> rcases c with _ | c <;>
    simp only [firstNonEmpty, Option.getD_none, Option.getD_some, ne_eq, not_true_eq_false,
      if_false, hd, not_false_eq_true, if_true]

/-- C6: `BusSession` returns the first non-empty value among the `BUS_SESSION`
variable, the `SESSION` variable, the trimmed output of the tmux query for `#S`,
and the string `default`; a later layer is used only when every earlier one is
unset or empty (or, for the query, failed or blank). -/
theorem busSession_precedence (env : Env) (tmux : Tmux) :
    BusSession env tmux =
      firstNonEmpty [env "BUS_SESSION", env "SESSION",
        (tmux (tmuxArgs env "#S")).map TrimSpace, some "default"] ∧
    (¬ UnsetOrEmpty env "BUS_SESSION" →
      BusSession env tmux = Getenv env "BUS_SESSION") ∧
    (UnsetOrEmpty env "BUS_SESSION" → ¬ UnsetOrEmpty env "SESSION" →
      BusSession env tmux = Getenv env "SESSION") ∧
    (UnsetOrEmpty env "BUS_SESSION" → UnsetOrEmpty env "SESSION" →
      tmuxVar env tmux "#S" ≠ "" → BusSession env tmux = tmuxVar env tmux "#S") ∧
    (UnsetOrEmpty env "BUS_SESSION" → UnsetOrEmpty env "SESSION" →
      tmuxVar env tmux "#S" = "" → BusSession env tmux = "default") := by
  refine ⟨?_, ?_, ?_, ?_, ?_⟩
  · unfold BusSession
    rw [tmuxVar_eq]
    exact layers_eq _ _ _ "default" (by decide)
  · intro h1
    rw [← getenv_eq_empty_iff] at h1
    unfold BusSession
    rw [if_pos h1]
  · intro h1 h2
    rw [← getenv_eq_empty_iff] at h1 h2
    unfold BusSession
    rw [if_neg (not_not.2 h1), if_pos h2]
  · intro h1 h2 h3
    rw [← getenv_eq_empty_iff] at h1 h2
    unfold BusSession
    rw [if_neg (not_not.2 h1), if_neg (not_not.2 h2), if_pos h3]
  · intro h1 h2 h3
    rw [← getenv_eq_empty_iff] at h1 h2
    unfold BusSession
    rw [if_neg (not_not.2 h1), if_neg (not_not.2 h2), if_neg (not_not.2 h3)]

/-- Witness for C6: with only `SESSION` set the session is its value, and with
nothing set and a tmux answer of ` main ` followed by a newline it is `main`. -/
theorem busSession_precedence_witness :
    BusSession (fun k => if k = "SESSION" then some "work" else none) (fun _ => none)
      = "work" ∧
    BusSession (fun _ => none) (fun _ => some " main \n") = "main" :=
  ⟨(busSession_precedence _ _).2.2.1 (by decide) (by decide),
   (busSession_precedence (fun _ => none) (fun _ => some " main \n")).2.2.2.1
     (by decide) (by decide) (by decide)⟩

/-- C8: when the tmux command fails `tmuxVar` returns the empty string, for
every format and environment; then `BusSession` is `default` when `BUS_SESSION`
and `SESSION` are unset or empty, and `BusRole` is `unknown` when `AGENT_ROLE`
and `BUS_ROLE` are unset or empty. -/
theorem tmux_failure_fallback (env : Env) (tmux : Tmux) :
    (∀ format, tmux (tmuxArgs env format) = none → tmuxVar env tmux format = "") ∧
    (tmux (tmuxArgs env "#S") = none →
      UnsetOrEmpty env "BUS_SESSION" → UnsetOrEmpty env "SESSION" →
      BusSession env tmux = "default") ∧
    (tmux (tmuxArgs env "#W") = none →
      UnsetOrEmpty env "AGENT_ROLE" → UnsetOrEmpty env "BUS_ROLE" →
      BusRole env tmux = "unknown") := by
  have hfail : ∀ format, tmux (tmuxArgs env format) = none → tmuxVar env tmux format = "" := by
    intro format h
    unfold tmuxVar
    rw [h]
  refine ⟨hfail, ?_, ?_⟩
  · intro hf h1 h2
    rw [← getenv_eq_empty_iff] at h1 h2
    unfold BusSession
    rw [if_neg (not_not.2 h1), if_neg (not_not.2 h2), if_neg (not_not.2 (hfail _ hf))]
  · intro hf h1 h2
    rw [← getenv_eq_empty_iff] at h1 h2
    unfold BusRole
    rw [if_neg (not_not.2 h1), if_neg (not_not.2 h2), if_neg (not_not.2 (hfail _ hf))]

/-- Witness for C8: a failing tmux command, `TMUX_PANE` set, `SESSION` set to
the empty string and the other variables unset. -/
theorem tmux_failure_fallback_witness :
    tmuxVar (fun k => if k = "TMUX_PANE" then some "%3"
      else if k = "SESSION" then some "" else none) (fun _ => none) "#S" = "" ∧
    BusSession (fun k => if k = "TMUX_PANE" then some "%3"
      else if k = "SESSION" then some "" else none) (fun _ => none) = "default" ∧
    BusRole (fun k => if k = "TMUX_PANE" then some "%3"
      else if k = "SESSION" then some "" else none) (fun _ => none) = "unknown" :=
  ⟨(tmux_failure_fallback _ (fun _ => none)).1 "#S" rfl,
   (tmux_failure_fallback _ (fun _ => none)).2.1 rfl (by decide) (by decide),
   (tmux_failure_fallback _ (fun _ => none)).2.2 rfl (by decide) (by decide)⟩


/-! ## Splitting and cleaning paths -/

theorem splitOnChar_ne_nil (sep : Char) (l : List Char) : splitOnChar sep l ≠ [] := by
  induction l with
  | nil => simp [splitOnChar]
  | cons c cs ih =>
    unfold splitOnChar
    by_cases h : c = sep
    · simp [h]
    · rw [if_neg h]
      cases hs : splitOnChar sep cs with
      | nil => simp
      | cons a as => simp

theorem splitOnChar_cons_ne (sep c : Char) (cs : List Char) (h : c ≠ sep) :
    ∃ seg segs, splitOnChar sep cs = seg :: segs ∧
      splitOnChar sep (c :: cs) = (c :: seg) :: segs := by
  cases hs : splitOnChar sep cs with
  | nil => exact absurd hs (splitOnChar_ne_nil sep cs)
  | cons a as =>
    refine ⟨a, as, rfl, ?_⟩
    rw [splitOnChar, if_neg h, hs]

/-- Splitting distributes over a separator. -/
theorem splitOnChar_append_sep (sep : Char) (a b : List Char) :
    splitOnChar sep (a ++ sep :: b) = splitOnChar sep a ++ splitOnChar sep b := by
  induction a with
  | nil => simp [splitOnChar]
  | cons c cs ih =>
    by_cases h : c = sep
    · simp [splitOnChar, h, ih]
    · obtain ⟨seg, segs, h1, h2⟩ := splitOnChar_cons_ne sep c cs h
      rw [h2, List.cons_append, splitOnChar, if_neg h, ih, h1]
      rfl

theorem splitOnChar_of_not_mem (sep : Char) (l : List Char) (h : sep ∉ l) :
    splitOnChar sep l = [l] := by
  induction l with
  | nil => rfl
  | cons c cs ih =>
    have hc : c ≠ sep := fun e => h (e ▸ List.mem_cons_self _ _)
    have hcs : sep ∉ cs := fun hm => h (List.mem_cons_of_mem _ hm)
    rw [splitOnChar, if_neg hc, ih hcs]

/-- A separator-free prefix is glued to the first segment. -/
theorem splitOnChar_glue_left (sep : Char) (a b : List Char) (h : sep ∉ a) :
    ∃ seg segs, splitOnChar sep b = seg :: segs ∧
      splitOnChar sep (a ++ b) = (a ++ seg) :: segs := by
  induction a with
  | nil =>
    cases hs : splitOnChar sep b with
    | nil => exact absurd hs (splitOnChar_ne_nil sep b)
    | cons x xs => exact ⟨x, xs, rfl, by simpa using hs⟩
  | cons c cs ih =>
    have hc : c ≠ sep := fun e => h (e ▸ List.mem_cons_self _ _)
    have hcs : sep ∉ cs := fun hm => h (List.mem_cons_of_mem _ hm)
    obtain ⟨seg, segs, h1, h2⟩ := ih hcs
    refine ⟨seg, segs, h1, ?_⟩
    rw [List.cons_append, splitOnChar, if_neg hc, h2]
    rfl

/-- A separator-free suffix is glued to the last segment. -/
theorem splitOnChar_glue_right (sep : Char) (b suf : List Char) (h : sep ∉ suf) :
    ∃ segs seg, splitOnChar sep b = segs ++ [seg] ∧
      splitOnChar sep (b ++ suf) = segs ++ [seg ++ suf] := by
  induction b with
  | nil =>
    refine ⟨[], [], rfl, ?_⟩
    simpa using splitOnChar_of_not_mem sep suf h
  | cons c cs ih =>
    obtain ⟨segs, seg, h1, h2⟩ := ih
    by_cases hc : c = sep
    · refine ⟨[] :: segs, seg, ?_, ?_⟩
      · simp [splitOnChar, hc, h1]
      · simp [splitOnChar, hc, h2]
    · cases segs with
      | nil =>
        refine ⟨[], c :: seg, ?_, ?_⟩
        · rw [splitOnChar, if_neg hc, h1]; rfl
        · rw [List.cons_append, splitOnChar, if_neg hc, h2]; rfl
      | cons x xs =>
        refine ⟨(c :: x) :: xs, seg, ?_, ?_⟩
        · rw [splitOnChar, if_neg hc, h1]; rfl
        · rw [List.cons_append, splitOnChar, if_neg hc, h2]; rfl

/-- Joining the segments with the separator gives the sequence back. -/
theorem intercalate_splitOnChar (sep : Char) (l : List Char) :
    List.intercalate [sep] (splitOnChar sep l) = l := by
  induction l with
  | nil => rfl
  | cons c cs ih =>
    by_cases h : c = sep
    · subst h
      cases hs : splitOnChar c cs with
      | nil => exact absurd hs (splitOnChar_ne_nil c cs)
      | cons x xs =>
        rw [hs] at ih
        simp only [splitOnChar, if_true, hs]
        simpa [List.intercalate, List.intersperse] using ih
    · obtain ⟨seg, segs, h1, h2⟩ := splitOnChar_cons_ne sep c cs h
      rw [h2]
      rw [h1] at ih
      cases segs with
      | nil => simpa [List.intercalate, List.intersperse] using ih
      | cons y ys => simpa [List.intercalate, List.intersperse] using ih

/-- No segment contains the separator. -/
theorem not_mem_of_mem_splitOnChar (sep : Char) (l seg : List Char)
    (h : seg ∈ splitOnChar sep l) : sep ∉ seg := by
  induction l generalizing seg with
  | nil =>
    simp only [splitOnChar, List.mem_singleton] at h
    subst h
    simp
  | cons c cs ih =>
    by_cases hc : c = sep
    · simp only [splitOnChar, hc, if_true, List.mem_cons] at h
      rcases h with h | h
      · subst h; simp
      · exact ih seg h
    · obtain ⟨x, xs, h1, h2⟩ := splitOnChar_cons_ne sep c cs hc
      rw [h2] at h
      rcases List.mem_cons.1 h with h | h
      · subst h
        have hx := ih x (by rw [h1]; exact List.mem_cons_self _ _)
        intro hm
        rcases List.mem_cons.1 hm with e | hm
        · exact hc e.symm
        · exact hx hm
      · exact ih seg (by rw [h1]; exact List.mem_cons_of_mem _ h)

/-- Without `..` elements cleaning only drops the empty and `.` elements. -/
theorem foldl_cleanStep_of_no_dotdot (rooted : Bool) (es : List (List Char))
    (h : ∀ e ∈ es, e ≠ ['.', '.']) (stack : List (List Char)) :
    es.foldl (cleanStep rooted) stack = (es.filter realElem).reverse ++ stack := by
  induction es generalizing stack with
  | nil => rfl
  | cons e es ih =>
    have he : e ≠ ['.', '.'] := h e (List.mem_cons_self _ _)
    rw [List.foldl_cons, ih (fun x hx => h x (List.mem_cons_of_mem _ hx))]
    unfold cleanStep
    by_cases h1 : e = []
    · simp [h1, realElem]
    · by_cases h2 : e = ['.']
      · simp [h2, realElem]
      · have hr : realElem e = true := by simp [realElem, h1, h2]
        rw [if_neg h1, if_neg h2, if_neg he, List.filter_cons_of_pos hr]
        simp

theorem cleanChars_rooted_of_no_dotdot (rest : List Char)
    (h : ∀ e ∈ splitOnChar '/' ('/' :: rest), e ≠ ['.', '.']) :
    cleanChars ('/' :: rest) =
      '/' :: List.intercalate ['/'] ((splitOnChar '/' ('/' :: rest)).filter realElem) := by
  unfold cleanChars
  simp only [List.head?_cons, decide_True, if_true]
  rw [foldl_cleanStep_of_no_dotdot true _ h []]
  simp


/-! ## The bus paths -/

/-- Elements of a bus path: the root, `tmp`, the bus directory name glued to
the first element of the session, the remaining elements of the session, and
the elements of what follows the bus directory. -/
theorem splitOnChar_bus (S tail S0 : List Char) (Stl : List (List Char))
    (hsplit : splitOnChar '/' S = S0 :: Stl) :
    splitOnChar '/' ("/tmp/muxcoder-bus-".data ++ S ++ '/' :: tail) =
      [] :: "tmp".data :: ("muxcoder-bus-".data ++ S0) :: (Stl ++ splitOnChar '/' tail) := by
  have hshape : "/tmp/muxcoder-bus-".data ++ S ++ '/' :: tail =
      '/' :: ("tmp".data ++ '/' :: (("muxcoder-bus-".data ++ S) ++ '/' :: tail)) := rfl
  obtain ⟨seg, segs, h1, h2⟩ :=
    splitOnChar_glue_left '/' "muxcoder-bus-".data S (by decide)
  rw [hsplit] at h1
  obtain ⟨rfl, rfl⟩ := List.cons.inj h1
  rw [hshape, splitOnChar, if_pos rfl, splitOnChar_append_sep, splitOnChar_append_sep, h2,
    splitOnChar_of_not_mem '/' "tmp".data (by decide)]
  rfl

/-- Cleaned form of a bus path that has no `..` element. -/
theorem cleanChars_bus (S tail S0 : List Char) (Stl : List (List Char))
    (hsplit : splitOnChar '/' S = S0 :: Stl)
    (hS : ∀ e ∈ Stl, e ≠ ['.', '.'])
    (ht : ∀ e ∈ splitOnChar '/' tail, e ≠ ['.', '.']) :
    cleanChars ("/tmp/muxcoder-bus-".data ++ S ++ '/' :: tail) =
      "/tmp/".data ++ List.intercalate ['/']
        (("muxcoder-bus-".data ++ S0) ::
          (Stl ++ splitOnChar '/' tail).filter realElem) := by
  have hshape : "/tmp/muxcoder-bus-".data ++ S ++ '/' :: tail =
      '/' :: ("tmp".data ++ '/' :: (("muxcoder-bus-".data ++ S) ++ '/' :: tail)) := rfl
  have hel := splitOnChar_bus S tail S0 Stl hsplit
  rw [hshape] at hel ⊢
  rw [cleanChars_rooted_of_no_dotdot, hel]
  · have hreal : realElem ("muxcoder-bus-".data ++ S0) = true := by
      simp [realElem]
    rw [List.filter_cons_of_neg (by decide), List.filter_cons_of_pos (by decide),
      List.filter_cons_of_pos hreal]
    simp [List.intercalate, List.intersperse]
  · rw [hel]
    intro e he
    simp only [List.mem_cons, List.mem_append] at he
    rcases he with rfl | rfl | rfl | he | he
    · decide
    · decide
    · intro h
      have := congrArg List.length h
      simp at this
    · exact hS e he
    · exact ht e he

/-- Elements of `dir/R.suf`: the directory, the elements of `R` but the last,
and the last element of `R` glued to the suffix. -/
theorem splitOnChar_tail (dir R suf seg : List Char) (segs : List (List Char))
    (hdir : '/' ∉ dir) (hsuf : '/' ∉ suf) (hsplit : splitOnChar '/' R = segs ++ [seg]) :
    splitOnChar '/' (dir ++ '/' :: (R ++ suf)) = dir :: (segs ++ [seg ++ suf]) := by
  obtain ⟨segs1, seg1, h1, h2⟩ := splitOnChar_glue_right '/' R suf hsuf
  rw [hsplit] at h1
  obtain ⟨e1, e2⟩ := List.append_inj' h1 rfl
  obtain ⟨rfl⟩ := List.cons.inj e2 |>.1
  subst e1
  rw [splitOnChar_append_sep, splitOnChar_of_not_mem '/' dir hdir, h2]
  rfl

theorem exists_splitOnChar_concat (R : List Char) :
    ∃ segs seg, splitOnChar '/' R = segs ++ [seg] := by
  obtain ⟨segs, seg, h, _⟩ := splitOnChar_glue_right '/' R [] (by simp)
  exact ⟨segs, seg, h⟩

theorem glued_ne_dotdot (seg suf : List Char) (hlen : 3 ≤ suf.length) :
    seg ++ suf ≠ ['.', '.'] := by
  intro h
  have := congrArg List.length h
  simp only [List.length_append, List.length_cons, List.length_nil] at this
  omega

theorem glued_real (seg suf : List Char) (hlen : 3 ≤ suf.length) :
    realElem (seg ++ suf) = true := by
  have h1 : seg ++ suf ≠ [] := by
    intro h
    have := congrArg List.length h
    simp only [List.length_append, List.length_cons, List.length_nil] at this
    omega
  have h2 : seg ++ suf ≠ ['.'] := by
    intro h
    have := congrArg List.length h
    simp only [List.length_append, List.length_cons, List.length_nil] at this
    omega
  simp [realElem, h1, h2]

/-- A bus file path built from a session and a role without `/` is already
clean. -/
theorem cleanChars_bus_file (S dir R suf : List Char) (hS : '/' ∉ S) (hR : '/' ∉ R)
    (hdir : '/' ∉ dir) (hreal : realElem dir = true) (hdd : dir ≠ ['.', '.'])
    (hsuf : '/' ∉ suf) (hlen : 3 ≤ suf.length) :
    cleanChars ("/tmp/muxcoder-bus-".data ++ S ++ '/' :: (dir ++ '/' :: (R ++ suf))) =
      "/tmp/muxcoder-bus-".data ++ S ++ '/' :: (dir ++ '/' :: (R ++ suf)) := by
  have ht := splitOnChar_tail dir R suf R [] hdir hsuf
    (by rw [splitOnChar_of_not_mem '/' R hR]; rfl)
  rw [cleanChars_bus S _ S [] (splitOnChar_of_not_mem '/' S hS) (by simp), ht]
  · rw [List.nil_append, List.nil_append, List.filter_cons_of_pos hreal,
      List.filter_cons_of_pos (glued_real R suf hlen)]
    simp [List.intercalate, List.intersperse]
  · rw [ht]
    intro e he
    simp only [List.nil_append, List.mem_cons, List.mem_singleton, List.not_mem_nil,
      or_false] at he
    rcases he with rfl | rfl
    · exact hdd
    · exact glued_ne_dotdot _ _ hlen

/-- A bus file path stays under `/tmp/` when no element of the session or of
the role is `..`. -/
theorem cleanChars_bus_file_under_tmp (S dir R suf : List Char)
    (hS : ∀ e ∈ splitOnChar '/' S, e ≠ ['.', '.'])
    (hR : ∀ e ∈ splitOnChar '/' R, e ≠ ['.', '.'])
    (hdir : '/' ∉ dir) (hdd : dir ≠ ['.', '.'])
    (hsuf : '/' ∉ suf) (hlen : 3 ≤ suf.length) :
    "/tmp/".data <+:
      cleanChars ("/tmp/muxcoder-bus-".data ++ S ++ '/' :: (dir ++ '/' :: (R ++ suf))) := by
  obtain ⟨segs, seg, hsplitR⟩ := exists_splitOnChar_concat R
  have ht := splitOnChar_tail dir R suf seg segs hdir hsuf hsplitR
  cases hsplitS : splitOnChar '/' S with
  | nil => exact absurd hsplitS (splitOnChar_ne_nil _ _)
  | cons S0 Stl =>
    rw [cleanChars_bus S _ S0 Stl hsplitS]
    · exact List.prefix_append _ _
    · intro e he
      exact hS e (by rw [hsplitS]; exact List.mem_cons_of_mem _ he)
    · rw [ht]
      intro e he
      simp only [List.mem_cons, List.mem_append, List.mem_singleton, List.not_mem_nil,
        or_false] at he
      rcases he with rfl | he | rfl
      · exact hdd
      · exact hR e (by rw [hsplitR]; exact List.mem_append_left _ he)
      · exact glued_ne_dotdot _ _ hlen

/-- A bus path with a single file name after the bus directory: clean when the
session has no `/`, and under `/tmp/` when no element of the session is `..`. -/
theorem cleanChars_bus_leaf (S leaf : List Char) (hleaf : '/' ∉ leaf)
    (hreal : realElem leaf = true) (hdd : leaf ≠ ['.', '.']) :
    ('/' ∉ S → cleanChars ("/tmp/muxcoder-bus-".data ++ S ++ '/' :: leaf) =
      "/tmp/muxcoder-bus-".data ++ S ++ '/' :: leaf) ∧
    ((∀ e ∈ splitOnChar '/' S, e ≠ ['.', '.']) →
      "/tmp/".data <+: cleanChars ("/tmp/muxcoder-bus-".data ++ S ++ '/' :: leaf)) := by
  have ht : ∀ e ∈ splitOnChar '/' leaf, e ≠ ['.', '.'] := by
    rw [splitOnChar_of_not_mem '/' leaf hleaf]
    intro e he
    rw [List.mem_singleton.1 he]
    exact hdd
  constructor
  · intro hS
    rw [cleanChars_bus S _ S [] (splitOnChar_of_not_mem '/' S hS) (by simp) ht,
      splitOnChar_of_not_mem '/' leaf hleaf, List.nil_append, List.filter_cons_of_pos hreal]
    simp [List.intercalate, List.intersperse]
  · intro hS
    cases hsplitS : splitOnChar '/' S with
    | nil => exact absurd hsplitS (splitOnChar_ne_nil _ _)
    | cons S0 Stl =>
      rw [cleanChars_bus S _ S0 Stl hsplitS
        (fun e he => hS e (by rw [hsplitS]; exact List.mem_cons_of_mem _ he)) ht]
      exact List.prefix_append _ _

theorem data_ne_dotdot_of_pathElems (S : String) (h : ∀ e ∈ pathElems S, e ≠ "..") :
    ∀ e ∈ splitOnChar '/' S.data, e ≠ ['.', '.'] := by
  intro e he hd
  refine h ⟨e⟩ ?_ (by rw [hd])
  unfold pathElems
  exact List.mem_map_of_mem _ he

theorem inboxPath_eq_clean (S R : String) :
    InboxPath S R = Clean (BusDir S ++ "/inbox/" ++ R ++ ".jsonl") := by
  unfold InboxPath Join
  have hne : ¬ BusDir S = "" := by
    rw [← ne_eq, str_ne_empty_iff]
    simp [BusDir, String.data_append]
  rw [List.dropWhile_cons_of_neg (by simpa using hne)]
  simp only
  congr 1
  apply String.ext
  simp [String.intercalate, String.intercalate.go, String.data_append]

theorem lockPath_eq_clean (S R : String) :
    LockPath S R = Clean (BusDir S ++ "/lock/" ++ R ++ ".lock") := by
  unfold LockPath Join
  have hne : ¬ BusDir S = "" := by
    rw [← ne_eq, str_ne_empty_iff]
    simp [BusDir, String.data_append]
  rw [List.dropWhile_cons_of_neg (by simpa using hne)]
  simp only
  congr 1
  apply String.ext
  simp [String.intercalate, String.intercalate.go, String.data_append]

theorem logPath_eq_clean (S : String) :
    LogPath S = Clean (BusDir S ++ "/log.jsonl") := by
  unfold LogPath Join
  have hne : ¬ BusDir S = "" := by
    rw [← ne_eq, str_ne_empty_iff]
    simp [BusDir, String.data_append]
  rw [List.dropWhile_cons_of_neg (by simpa using hne)]
  simp only
  congr 1
  apply String.ext
  simp [String.intercalate, String.intercalate.go, String.data_append]


theorem inbox_data (S R : String) :
    (BusDir S ++ "/inbox/" ++ R ++ ".jsonl").data =
      "/tmp/muxcoder-bus-".data ++ S.data ++
        '/' :: ("inbox".data ++ '/' :: (R.data ++ ".jsonl".data)) := by
  simp only [BusDir, String.data_append, List.append_assoc]
  rfl

theorem lock_data (S R : String) :
    (BusDir S ++ "/lock/" ++ R ++ ".lock").data =
      "/tmp/muxcoder-bus-".data ++ S.data ++
        '/' :: ("lock".data ++ '/' :: (R.data ++ ".lock".data)) := by
  simp only [BusDir, String.data_append, List.append_assoc]
  rfl

theorem log_data (S : String) :
    (BusDir S ++ "/log.jsonl").data =
      "/tmp/muxcoder-bus-".data ++ S.data ++ '/' :: "log.jsonl".data := by
  simp only [BusDir, String.data_append, List.append_assoc]

/-- C9, amended: `BusDir(S)` is `/tmp/muxcoder-bus-` followed by `S`, and each
of `InboxPath`, `LockPath`, `LogPath` is the lexically cleaned form of the
plain concatenation (`BusDir(S)/inbox/R.jsonl`, `BusDir(S)/lock/R.lock`,
`BusDir(S)/log.jsonl`); it equals the plain concatenation whenever `S` and `R`
contain no `/`, as in `InboxPath("s1","edit")`. -/
theorem bus_paths_cleaned (S R : String) :
    BusDir S = "/tmp/muxcoder-bus-" ++ S ∧
    InboxPath S R = Clean (BusDir S ++ "/inbox/" ++ R ++ ".jsonl") ∧
    LockPath S R = Clean (BusDir S ++ "/lock/" ++ R ++ ".lock") ∧
    LogPath S = Clean (BusDir S ++ "/log.jsonl") ∧
    ('/' ∉ S.data → '/' ∉ R.data →
      InboxPath S R = BusDir S ++ "/inbox/" ++ R ++ ".jsonl" ∧
      LockPath S R = BusDir S ++ "/lock/" ++ R ++ ".lock") ∧
    ('/' ∉ S.data → LogPath S = BusDir S ++ "/log.jsonl") ∧
    InboxPath "s1" "edit" = "/tmp/muxcoder-bus-s1/inbox/edit.jsonl" := by
  refine ⟨rfl, inboxPath_eq_clean S R, lockPath_eq_clean S R, logPath_eq_clean S,
    ?_, ?_, by decide⟩
  · intro hS hR
    constructor
    · rw [inboxPath_eq_clean]
      apply String.ext
      rw [Clean, inbox_data]
      exact cleanChars_bus_file S.data "inbox".data R.data ".jsonl".data hS hR
        (by decide) (by decide) (by decide) (by decide) (by decide)
    · rw [lockPath_eq_clean]
      apply String.ext
      rw [Clean, lock_data]
      exact cleanChars_bus_file S.data "lock".data R.data ".lock".data hS hR
        (by decide) (by decide) (by decide) (by decide) (by decide)
  · intro hS
    rw [logPath_eq_clean]
    apply String.ext
    rw [Clean, log_data]
    exact (cleanChars_bus_leaf S.data "log.jsonl".data (by decide) (by decide)
      (by decide)).1 hS

/-- Witness for C9 at session `s1` and role `edit`. -/
theorem bus_paths_cleaned_witness :
    (InboxPath "s1" "edit" = BusDir "s1" ++ "/inbox/" ++ "edit" ++ ".jsonl" ∧
      LockPath "s1" "edit" = BusDir "s1" ++ "/lock/" ++ "edit" ++ ".lock") ∧
    LogPath "s1" = BusDir "s1" ++ "/log.jsonl" :=
  ⟨(bus_paths_cleaned "s1" "edit").2.2.2.2.1 (by decide) (by decide),
   (bus_paths_cleaned "s1" "edit").2.2.2.2.2.1 (by decide)⟩

/-- C9 as stated fails: for the role `../x` the inbox path is not the plain
concatenation, because the path join removes `inbox/..`. -/
theorem inboxPath_not_concatenation :
    InboxPath "s1" "../x" = "/tmp/muxcoder-bus-s1/x.jsonl" ∧
    InboxPath "s1" "../x" ≠ BusDir "s1" ++ "/inbox/" ++ "../x" ++ ".jsonl" := by
  decide

/-- C10, amended: `BusDir(S)` and `TriggerFile(S)` begin with `/tmp/` for every
session; `LogPath(S)` begins with `/tmp/` when no `/`-separated element of `S`
is `..`, and `InboxPath(S,R)` and `LockPath(S,R)` do when in addition no
element of `R` is `..`. -/
theorem bus_paths_under_tmp (S R : String) :
    BeginsWith "/tmp/" (BusDir S) ∧
    BeginsWith "/tmp/" (TriggerFile S) ∧
    ((∀ e ∈ pathElems S, e ≠ "..") → BeginsWith "/tmp/" (LogPath S)) ∧
    ((∀ e ∈ pathElems S, e ≠ "..") → (∀ e ∈ pathElems R, e ≠ "..") →
      BeginsWith "/tmp/" (InboxPath S R) ∧ BeginsWith "/tmp/" (LockPath S R)) := by
  refine ⟨?_, ?_, ?_, ?_⟩
  · refine ⟨"muxcoder-bus-".data ++ S.data, ?_⟩
    simp only [BusDir, String.data_append, ← List.append_assoc]
    rfl
  · refine ⟨"muxcoder-analyze-".data ++ S.data ++ ".trigger".data, ?_⟩
    simp only [TriggerFile, String.data_append, ← List.append_assoc]
    rfl
  · intro hS
    unfold BeginsWith
    rw [logPath_eq_clean, Clean, log_data]
    exact (cleanChars_bus_leaf S.data "log.jsonl".data (by decide) (by decide)
      (by decide)).2 (data_ne_dotdot_of_pathElems S hS)
  · intro hS hR
    unfold BeginsWith
    constructor
    · rw [inboxPath_eq_clean, Clean, inbox_data]
      exact cleanChars_bus_file_under_tmp S.data "inbox".data R.data ".jsonl".data
        (data_ne_dotdot_of_pathElems S hS) (data_ne_dotdot_of_pathElems R hR)
        (by decide) (by decide) (by decide) (by decide)
    · rw [lockPath_eq_clean, Clean, lock_data]
      exact cleanChars_bus_file_under_tmp S.data "lock".data R.data ".lock".data
        (data_ne_dotdot_of_pathElems S hS) (data_ne_dotdot_of_pathElems R hR)
        (by decide) (by decide) (by decide) (by decide)

/-- Witness for C10 at the session `a/./b` and the role `r//x`, neither of
which has a `..` element. -/
theorem bus_paths_under_tmp_witness :
    BeginsWith "/tmp/" (LogPath "a/./b") ∧
    BeginsWith "/tmp/" (InboxPath "a/./b" "r//x") ∧
    BeginsWith "/tmp/" (LockPath "a/./b" "r//x") :=
  ⟨(bus_paths_under_tmp "a/./b" "r//x").2.2.1 (by decide),
   (bus_paths_under_tmp "a/./b" "r//x").2.2.2 (by decide) (by decide)⟩

/-- C10 as stated fails: for the session `a/../..` the inbox, lock and log
paths are cleaned to paths outside `/tmp/`. -/
theorem bus_paths_escape_tmp :
    InboxPath "a/../.." "x" = "/inbox/x.jsonl" ∧
    ¬ BeginsWith "/tmp/" (InboxPath "a/../.." "x") ∧
    ¬ BeginsWith "/tmp/" (LockPath "a/../.." "x") ∧
    ¬ BeginsWith "/tmp/" (LogPath "a/../..") := by
  decide

/-! ## Memory paths and pane targets -/

theorem memoryDir_of_unset (env : Env) (h : UnsetOrEmpty env "BUS_MEMORY_DIR") :
    MemoryDir env = ".muxcoder/memory" := by
  have hg : Getenv env "BUS_MEMORY_DIR" = "" := (getenv_eq_empty_iff _ _).2 h
  unfold MemoryDir
  rw [if_neg (not_not.2 hg)]
  decide

theorem memoryDir_of_set (env : Env) (h : ¬ UnsetOrEmpty env "BUS_MEMORY_DIR") :
    MemoryDir env = Getenv env "BUS_MEMORY_DIR" := by
  rw [← getenv_eq_empty_iff] at h
  unfold MemoryDir
  rw [if_pos h]

theorem memoryDir_congr (env1 env2 : Env)
    (h : env1 "BUS_MEMORY_DIR" = env2 "BUS_MEMORY_DIR") : MemoryDir env1 = MemoryDir env2 := by
  unfold MemoryDir Getenv
  rw [h]

/-- C11: `MemoryDir` is the value of `BUS_MEMORY_DIR` when that variable is set
and non-empty and `.muxcoder/memory` otherwise; `MemoryPath("shared")` is
`shared.md` joined under that directory, which is `.muxcoder/memory/shared.md`
without an override and the join of `d` and `shared.md` for a non-empty
override `d`; the result depends on nothing but that variable, so a repeated
call gives it again. -/
theorem memoryPath_shared (env : Env) :
    (¬ UnsetOrEmpty env "BUS_MEMORY_DIR" → MemoryDir env = Getenv env "BUS_MEMORY_DIR") ∧
    (UnsetOrEmpty env "BUS_MEMORY_DIR" → MemoryDir env = ".muxcoder/memory") ∧
    MemoryPath env "shared" = Join [MemoryDir env, "shared.md"] ∧
    (UnsetOrEmpty env "BUS_MEMORY_DIR" →
      MemoryPath env "shared" = ".muxcoder/memory/shared.md") ∧
    (∀ d, d ≠ "" → env "BUS_MEMORY_DIR" = some d →
      MemoryPath env "shared" = Join [d, "shared.md"]) ∧
    (∀ env2 : Env, env2 "BUS_MEMORY_DIR" = env "BUS_MEMORY_DIR" →
      MemoryDir env2 = MemoryDir env ∧
      MemoryPath env2 "shared" = MemoryPath env "shared") := by
  have hshared : MemoryPath env "shared" = Join [MemoryDir env, "shared.md"] := by
    unfold MemoryPath
    rw [if_pos rfl]
  refine ⟨memoryDir_of_set env, memoryDir_of_unset env, hshared, ?_, ?_, ?_⟩
  · intro h
    rw [hshared, memoryDir_of_unset env h]
    decide
  · intro d hd hset
    have hg : Getenv env "BUS_MEMORY_DIR" = d := by simp [Getenv, hset]
    rw [hshared]
    unfold MemoryDir
    rw [hg, if_pos hd]
  · intro env2 h
    have hdir := memoryDir_congr env2 env h
    refine ⟨hdir, ?_⟩
    unfold MemoryPath
    rw [hdir]

/-- Witness for C11: no override, and the override `/var/mem/`. -/
theorem memoryPath_shared_witness :
    MemoryPath (fun _ => none) "shared" = ".muxcoder/memory/shared.md" ∧
    MemoryPath (fun k => if k = "BUS_MEMORY_DIR" then some "/var/mem/" else none) "shared"
      = Join ["/var/mem/", "shared.md"] :=
  ⟨(memoryPath_shared (fun _ => none)).2.2.2.1 (by decide),
   (memoryPath_shared _).2.2.2.2.1 "/var/mem/" (by decide) (by decide)⟩

/-- C12: `AgentPane` returns `1` for every window, and `PaneTarget(session,
window)` is `session:window.1`, the session, window and pane of `AgentPane`
joined with `:` and `.`. -/
theorem paneTarget_scheme (session window : String) :
    AgentPane window = "1" ∧
    PaneTarget session window = session ++ ":" ++ window ++ ".1" ∧
    PaneTarget session window = session ++ ":" ++ window ++ "." ++ AgentPane window := by
  refine ⟨rfl, ?_, rfl⟩
  unfold PaneTarget AgentPane
  rw [String.append_assoc (session ++ ":" ++ window) "." "1"]
  rfl

/-- C15: the branch of `MemoryPath` for `shared` is redundant: for every role
and environment `MemoryPath(role)` is the join of `MemoryDir()` and
`role.md`, so the function equals the one without the branch. -/
theorem memoryPath_branch_redundant (env : Env) (role : String) :
    MemoryPath env role = Join [MemoryDir env, role ++ ".md"] ∧
    MemoryPath = MemoryPathPlain := by
  have h : ∀ (e : Env) (r : String), MemoryPath e r = Join [MemoryDir e, r ++ ".md"] := by
    intro e r
    unfold MemoryPath
    by_cases hr : r = "shared"
    · rw [if_pos hr, hr]
      rfl
    · rw [if_neg hr]
  exact ⟨h env role, funext fun e => funext fun r => h e r⟩

/-- C17: `BusSession` and `BusRole` return a non-empty string for every
environment and every outcome of the tmux query. -/
theorem identity_nonempty (env : Env) (tmux : Tmux) :
    BusSession env tmux ≠ "" ∧ BusRole env tmux ≠ "" := by
  constructor
  · unfold BusSession
    split_ifs with h1 h2 h3
    · exact h1
    · exact h2
    · exact h3
    · decide
  · unfold BusRole
    split_ifs with h1 h2 h3
    · exact h1
    · exact h2
    · exact h3
    · decide

/-! ## Injectivity of the inbox and lock paths -/

/-- The text before the first separator and the text after it determine a
sequence. -/
theorem append_sep_inj (sep : Char) (a b x y : List Char) (ha : sep ∉ a) (hb : sep ∉ b)
    (h : a ++ sep :: x = b ++ sep :: y) : a = b ∧ x = y := by
  induction a generalizing b with
  | nil =>
    cases b with
    | nil => exact ⟨rfl, by simpa using h⟩
    | cons d ds =>
      have hd : sep = d := by simpa using (List.cons.inj h).1
      exact absurd (hd ▸ List.mem_cons_self _ _) hb
  | cons c cs ih =>
    cases b with
    | nil =>
      have hc : c = sep := by simpa using (List.cons.inj h).1
      exact absurd (hc ▸ List.mem_cons_self _ _) ha
    | cons d ds =>
      obtain ⟨hcd, htl⟩ := List.cons.inj h
      obtain ⟨e1, e2⟩ := ih ds (fun hm => ha (List.mem_cons_of_mem _ hm))
        (fun hm => hb (List.mem_cons_of_mem _ hm)) htl
      exact ⟨by rw [hcd, e1], e2⟩

/-- A bus file path of a session and a role without `/` determines both. -/
theorem bus_file_inj (dir suf : String) (hdir : '/' ∉ dir.data)
    (hreal : realElem dir.data = true) (hdd : dir.data ≠ ['.', '.'])
    (hsuf : '/' ∉ suf.data) (hlen : 3 ≤ suf.data.length)
    (S1 R1 S2 R2 : String) (hS1 : '/' ∉ S1.data) (hR1 : '/' ∉ R1.data)
    (hS2 : '/' ∉ S2.data) (hR2 : '/' ∉ R2.data)
    (h : cleanChars ("/tmp/muxcoder-bus-".data ++ S1.data ++
          '/' :: (dir.data ++ '/' :: (R1.data ++ suf.data))) =
        cleanChars ("/tmp/muxcoder-bus-".data ++ S2.data ++
          '/' :: (dir.data ++ '/' :: (R2.data ++ suf.data)))) :
    S1 = S2 ∧ R1 = R2 := by
  rw [cleanChars_bus_file S1.data dir.data R1.data suf.data hS1 hR1 hdir hreal hdd hsuf hlen,
    cleanChars_bus_file S2.data dir.data R2.data suf.data hS2 hR2 hdir hreal hdd hsuf hlen,
    List.append_assoc, List.append_assoc] at h
  have h2 := List.append_cancel_left h
  obtain ⟨hS, ht⟩ := append_sep_inj '/' _ _ _ _ hS1 hS2 h2
  have h3 := List.append_cancel_left ht
  have h4 := List.append_cancel_right (List.cons.inj h3).2
  exact ⟨String.ext hS, String.ext h4⟩

/-- C16: for sessions and roles that contain no `/`, equal inbox paths come
from equal sessions and equal roles, and so do equal lock paths. -/
theorem inbox_lock_injective (S1 R1 S2 R2 : String)
    (hS1 : '/' ∉ S1.data) (hR1 : '/' ∉ R1.data)
    (hS2 : '/' ∉ S2.data) (hR2 : '/' ∉ R2.data) :
    (InboxPath S1 R1 = InboxPath S2 R2 → S1 = S2 ∧ R1 = R2) ∧
    (LockPath S1 R1 = LockPath S2 R2 → S1 = S2 ∧ R1 = R2) := by
  constructor
  · intro h
    rw [inboxPath_eq_clean, inboxPath_eq_clean] at h
    have hd := congrArg String.data h
    simp only [Clean, inbox_data] at hd
    exact bus_file_inj "inbox" ".jsonl" (by decide) (by decide) (by decide) (by decide)
      (by decide) S1 R1 S2 R2 hS1 hR1 hS2 hR2 hd
  · intro h
    rw [lockPath_eq_clean, lockPath_eq_clean] at h
    have hd := congrArg String.data h
    simp only [Clean, lock_data] at hd
    exact bus_file_inj "lock" ".lock" (by decide) (by decide) (by decide) (by decide)
      (by decide) S1 R1 S2 R2 hS1 hR1 hS2 hR2 hd

/-- Witness for C16 at the session `s1` and the role `edit` on both sides. -/
theorem inbox_lock_injective_witness :
    InboxPath "s1" "edit" = InboxPath "s1" "edit" ∧ ("s1" = "s1" ∧ "edit" = "edit") :=
  ⟨rfl, (inbox_lock_injective "s1" "edit" "s1" "edit" (by decide) (by decide) (by decide)
    (by decide)).1 rfl⟩

/-! ## Idempotence of the registry extension -/

theorem extendRoles_of_all_known (segs roles : List String)
    (h : ∀ seg ∈ segs, TrimSpace seg = "" ∨ TrimSpace seg ∈ roles) :
    extendRoles roles segs = roles := by
  induction segs with
  | nil => rfl
  | cons s ss ih =>
    have hstep : extendStep roles s = roles := by
      unfold extendStep
      rcases h s (List.mem_cons_self _ _) with he | hm
      · rw [if_neg (fun hc => hc.1 he)]
      · rw [if_neg (fun hc => hc.2 ((isKnownIn_iff _ _).2 hm))]
    have hfold : extendRoles roles (s :: ss) = extendRoles (extendStep roles s) ss := rfl
    rw [hfold, hstep]
    exact ih (fun seg hseg => h seg (List.mem_cons_of_mem _ hseg))

theorem candidate_known_after (segs roles : List String) :
    ∀ seg ∈ segs, TrimSpace seg = "" ∨ TrimSpace seg ∈ extendRoles roles segs := by
  intro seg hseg
  by_cases he : TrimSpace seg = ""
  · exact Or.inl he
  · exact Or.inr ((mem_extendRoles segs roles _).2 (Or.inr ⟨he, seg, hseg, rfl⟩))

theorem extendRoles_idem (segs roles : List String) :
    extendRoles (extendRoles roles segs) segs = extendRoles roles segs :=
  extendRoles_of_all_known segs _ (candidate_known_after segs roles)

theorem initRoles_idem (roles : List String) (extra : String) :
    initRoles (initRoles roles extra) extra = initRoles roles extra := by
  unfold initRoles
  by_cases h : extra ≠ ""
  · rw [if_pos h, if_pos h]
    exact extendRoles_idem _ _
  · rw [if_neg h, if_neg h]

theorem init_eq_initRoles (env : Env) :
    (init env).KnownRoles = initRoles builtinRoles (Getenv env "MUXCODER_ROLES") := rfl

/-- C18: the registry extension of `init` is idempotent: run a second time on
the registry it produced, with the same value of `MUXCODER_ROLES`, it leaves
the registry unchanged, because every candidate is already known and no loop
iteration appends; the same holds from any starting registry. -/
theorem registry_extension_idempotent (env : Env) :
    (init env).KnownRoles = initRoles builtinRoles (Getenv env "MUXCODER_ROLES") ∧
    initRoles (init env).KnownRoles (Getenv env "MUXCODER_ROLES") = (init env).KnownRoles ∧
    (∀ seg ∈ SplitComma (Getenv env "MUXCODER_ROLES"),
      (TrimSpace seg = "" ∨ IsKnownRole (init env) (TrimSpace seg) = true) ∧
      extendStep (init env).KnownRoles seg = (init env).KnownRoles) ∧
    (∀ (roles : List String) (extra : String),
      initRoles (initRoles roles extra) extra = initRoles roles extra) := by
  refine ⟨rfl, ?_, ?_, initRoles_idem⟩
  · rw [init_eq_initRoles]
    exact initRoles_idem _ _
  · intro seg hseg
    have hk : TrimSpace seg = "" ∨ TrimSpace seg ∈ (init env).KnownRoles := by
      rw [init_knownRoles]
      exact candidate_known_after _ _ seg hseg
    constructor
    · rcases hk with he | hm
      · exact Or.inl he
      · exact Or.inr ((isKnownIn_iff _ _).2 hm)
    · exact extendRoles_of_all_known [seg] _ (by
        intro s hs
        rw [List.mem_singleton.1 hs]
        exact hk)

/-- Witness for C18: with `MUXCODER_ROLES` set to `foo, bar,foo` the segment
` bar` appends nothing to the registry that `init` produced. -/
theorem registry_extension_idempotent_witness :
    extendStep (init (fun k => if k = "MUXCODER_ROLES" then some "foo, bar,foo" else none)).KnownRoles
      " bar" =
    (init (fun k => if k = "MUXCODER_ROLES" then some "foo, bar,foo" else none)).KnownRoles :=
  ((registry_extension_idempotent _).2.2.1 " bar" (by decide)).2

/-! ## The package state after initialization -/

theorem call_state (cfg : Config) (env : Env) (tmux : Tmux) (op : Op) :
    (call cfg env tmux op).1 = cfg := by
  cases op <;> rfl

theorem runCalls_state (calls : List (Env × Tmux × Op)) (cfg : Config) :
    runCalls cfg calls = cfg := by
  induction calls with
  | nil => rfl
  | cons step rest ih =>
    have hstep : runCalls cfg (step :: rest) =
        runCalls (call cfg step.1 step.2.1 step.2.2).1 rest := rfl
    rw [hstep, call_state, ih]

theorem getenv_congr (env1 env2 : Env) (key : String) (h : env1 key = env2 key) :
    Getenv env1 key = Getenv env2 key := by
  unfold Getenv
  rw [h]

theorem tmuxVar_congr (env1 env2 : Env) (tmux : Tmux) (format : String)
    (h : env1 "TMUX_PANE" = env2 "TMUX_PANE") :
    tmuxVar env1 tmux format = tmuxVar env2 tmux format := by
  unfold tmuxVar tmuxArgs
  rw [getenv_congr env1 env2 _ h]

theorem call_congr (cfg : Config) (env1 env2 : Env) (tmux : Tmux) (op : Op)
    (h : AgreeOffStartup env1 env2) : call cfg env1 tmux op = call cfg env2 tmux op := by
  have hpane : env1 "TMUX_PANE" = env2 "TMUX_PANE" := h _ (by decide) (by decide)
  have hmem : env1 "BUS_MEMORY_DIR" = env2 "BUS_MEMORY_DIR" := h _ (by decide) (by decide)
  cases op with
  | busSession =>
    simp only [call, BusSession]
    rw [getenv_congr env1 env2 "BUS_SESSION" (h _ (by decide) (by decide)),
      getenv_congr env1 env2 "SESSION" (h _ (by decide) (by decide)),
      tmuxVar_congr env1 env2 tmux "#S" hpane]
  | busRole =>
    simp only [call, BusRole]
    rw [getenv_congr env1 env2 "AGENT_ROLE" (h _ (by decide) (by decide)),
      getenv_congr env1 env2 "BUS_ROLE" (h _ (by decide) (by decide)),
      tmuxVar_congr env1 env2 tmux "#W" hpane]
  | memoryDir =>
    simp only [call]
    rw [memoryDir_congr env1 env2 hmem]
  | memoryPath role =>
    simp only [call, MemoryPath]
    rw [memoryDir_congr env1 env2 hmem]
  | tmuxVar format =>
    simp only [call]
    rw [tmuxVar_congr env1 env2 tmux format hpane]
  | _ => rfl

/-- C13: once `init` has run, no call of a package function changes the role
registry or the split-left map, and no call depends on the current values of
`MUXCODER_ROLES` and `MUXCODER_SPLIT_LEFT`; so after any sequence of calls,
under any later environments, `IsKnownRole` and `IsSplitLeft` answer as they
did right after `init`. -/
theorem state_fixed_after_init (env0 : Env) :
    (∀ (env : Env) (tmux : Tmux) (op : Op),
      (call (init env0) env tmux op).1 = init env0) ∧
    (∀ (env1 env2 : Env) (tmux : Tmux) (op : Op), AgreeOffStartup env1 env2 →
      call (init env0) env1 tmux op = call (init env0) env2 tmux op) ∧
    (∀ calls : List (Env × Tmux × Op),
      (runCalls (init env0) calls).KnownRoles = (init env0).KnownRoles ∧
      (runCalls (init env0) calls).splitLeftWindows = (init env0).splitLeftWindows) ∧
    (∀ (calls : List (Env × Tmux × Op)) (env1 env2 : Env) (tmux1 tmux2 : Tmux)
        (r w : String),
      (call (runCalls (init env0) calls) env1 tmux1 (Op.isKnownRole r)).2 =
        (call (init env0) env2 tmux2 (Op.isKnownRole r)).2 ∧
      (call (runCalls (init env0) calls) env1 tmux1 (Op.isSplitLeft w)).2 =
        (call (init env0) env2 tmux2 (Op.isSplitLeft w)).2) := by
  refine ⟨fun env tmux op => call_state _ env tmux op,
    fun env1 env2 tmux op h => call_congr _ env1 env2 tmux op h, ?_, ?_⟩
  · intro calls
    rw [runCalls_state]
    exact ⟨rfl, rfl⟩
  · intro calls env1 env2 tmux1 tmux2 r w
    rw [runCalls_state]
    exact ⟨rfl, rfl⟩

/-- Witness for C13: after startup with `MUXCODER_ROLES` set to `foo`, a call of
`BusSession` made when the variable has been changed to `bar` returns what it
returns with the variable unchanged. -/
theorem state_fixed_after_init_witness :
    AgreeOffStartup (fun k => if k = "MUXCODER_ROLES" then some "bar" else none)
      (fun k => if k = "MUXCODER_ROLES" then some "foo" else none) ∧
    call (init (fun k => if k = "MUXCODER_ROLES" then some "foo" else none))
        (fun k => if k = "MUXCODER_ROLES" then some "bar" else none) (fun _ => none)
        Op.busSession =
      call (init (fun k => if k = "MUXCODER_ROLES" then some "foo" else none))
        (fun k => if k = "MUXCODER_ROLES" then some "foo" else none) (fun _ => none)
        Op.busSession :=
  ⟨fun key h1 _ => by simp [h1],
   (state_fixed_after_init _).2.1 _ _ (fun _ => none) Op.busSession
     (fun key h1 _ => by simp [h1])⟩

/-! ## Characterisation of trimming, splitting and fields -/

theorem rdropWhile_append_of_pos (p : Char → Bool) (t r : List Char)
    (hr : ∀ c ∈ r, p c = true) : (t ++ r).rdropWhile p = t.rdropWhile p := by
  induction r using List.reverseRecOn with
  | nil => simp
  | append_singleton r x ih =>
    rw [← List.append_assoc, List.rdropWhile_concat_pos _ _ _ (hr x (by simp))]
    exact ih (fun c hc => hr c (by simp [hc]))

theorem trimChars_of_parts (l t r : List Char) (hl : ∀ c ∈ l, isSpace c = true)
    (hr : ∀ c ∈ r, isSpace c = true)
    (hhead : ∀ c, t.head? = some c → isSpace c = false)
    (hlast : ∀ c, t.getLast? = some c → isSpace c = false) :
    ((l ++ t ++ r).dropWhile isSpace).rdropWhile isSpace = t := by
  rw [List.append_assoc, List.dropWhile_append_of_pos hl]
  cases t with
  | nil =>
    have h0 : ([] ++ r).dropWhile isSpace = [] := by
      rw [List.nil_append, List.dropWhile_eq_nil_iff]
      exact hr
    rw [h0]
    rfl
  | cons a as =>
    have ha : ¬ isSpace a = true := by
      have := hhead a rfl
      simp [this]
    rw [List.cons_append, List.dropWhile_cons_of_neg ha, ← List.cons_append,
      rdropWhile_append_of_pos isSpace _ r hr, List.rdropWhile_eq_self_iff]
    intro hne
    have hlast2 := hlast _ (List.getLast?_eq_getLast _ hne)
    simp [hlast2]

/-- Trimming returns the one string that is the argument without its outer
white space. -/
theorem trimSpace_eq_of_trimmedOf (t s : String) (h : TrimmedOf t s) : TrimSpace s = t := by
  obtain ⟨l, r, hs, hl, hr, hhead, hlast⟩ := h
  apply String.ext
  simp only [TrimSpace]
  rw [hs]
  exact trimChars_of_parts l t.data r hl hr hhead hlast

theorem rdropWhile_append_rtakeWhile_self (p : Char → Bool) (l : List Char) :
    l.rdropWhile p ++ l.rtakeWhile p = l := by
  unfold List.rdropWhile List.rtakeWhile
  rw [← List.reverse_append, List.takeWhile_append_dropWhile, List.reverse_reverse]

theorem trimmedOf_trimSpace (s : String) : TrimmedOf (TrimSpace s) s := by
  refine ⟨s.data.takeWhile isSpace, (s.data.dropWhile isSpace).rtakeWhile isSpace, ?_,
    fun c hc => List.mem_takeWhile_imp hc, fun c hc => List.mem_rtakeWhile_imp hc,
    trimSpace_noOuterSpace s⟩
  simp only [TrimSpace]
  rw [List.append_assoc, rdropWhile_append_rtakeWhile_self, List.takeWhile_append_dropWhile]

theorem trimSpace_eq_iff (t s : String) : TrimSpace s = t ↔ TrimmedOf t s :=
  ⟨fun h => h ▸ trimmedOf_trimSpace s, trimSpace_eq_of_trimmedOf t s⟩

theorem map_trimSpace_of_forall₂ (ts segs : List String)
    (h : List.Forall₂ TrimmedOf ts segs) : segs.map TrimSpace = ts := by
  induction h with
  | nil => rfl
  | cons hd _ ih => rw [List.map_cons, ih, trimSpace_eq_of_trimmedOf _ _ hd]

/-- Splitting returns the one list of separator-free segments that joins to the
sequence. -/
theorem splitOnChar_intercalate (sep : Char) (segs : List (List Char)) (hne : segs ≠ [])
    (h : ∀ seg ∈ segs, sep ∉ seg) :
    splitOnChar sep (List.intercalate [sep] segs) = segs := by
  induction segs with
  | nil => exact absurd rfl hne
  | cons a rest ih =>
    cases rest with
    | nil =>
      have h1 : List.intercalate [sep] [a] = a := by simp [List.intercalate, List.intersperse]
      rw [h1]
      exact splitOnChar_of_not_mem sep a (h a (List.mem_cons_self _ _))
    | cons b t =>
      have h1 : List.intercalate [sep] (a :: b :: t) =
          a ++ sep :: List.intercalate [sep] (b :: t) := by
        simp [List.intercalate, List.intersperse]
      rw [h1, splitOnChar_append_sep, ih (by simp) (fun s hs => h s (List.mem_cons_of_mem _ hs)),
        splitOnChar_of_not_mem sep a (h a (List.mem_cons_self _ _))]
      rfl

theorem splitComma_of_segments (extra : String) (segs : List String) (hne : segs ≠ [])
    (hseg : ∀ s ∈ segs, ',' ∉ s.data)
    (hjoin : extra.data = List.intercalate [','] (segs.map String.data)) :
    SplitComma extra = segs := by
  unfold SplitComma
  rw [hjoin, splitOnChar_intercalate ',' _ (by simpa using hne)]
  · rw [List.map_map]
    conv_rhs => rw [← List.map_id segs]
    apply List.map_congr_left
    intro s _
    rfl
  · intro seg hs
    obtain ⟨s, hs1, rfl⟩ := List.mem_map.1 hs
    exact hseg s hs1

theorem fieldsAux_append_run (a l cur : List Char) (ha : ∀ c ∈ a, isSpace c = false) :
    fieldsAux (a ++ l) cur = fieldsAux l (a.reverse ++ cur) := by
  induction a generalizing cur with
  | nil => rfl
  | cons c cs ih =>
    have hc : isSpace c = false := ha c (List.mem_cons_self _ _)
    rw [List.cons_append, fieldsAux]
    simp only [hc, Bool.false_eq_true, if_false]
    rw [ih (c :: cur) (fun d hd => ha d (List.mem_cons_of_mem _ hd))]
    simp

/-- Every field is a maximal run of characters that are not white space. -/
theorem isRunOf_of_mem_fieldsAux (l cur t : List Char)
    (hcur : ∀ c ∈ cur, isSpace c = false) (ht : t ∈ fieldsAux l cur) :
    IsRunOf t (cur.reverse ++ l) := by
  induction l generalizing cur with
  | nil =>
    by_cases hc : cur = []
    · simp [fieldsAux, hc] at ht
    · simp only [fieldsAux, hc, if_false, List.mem_singleton] at ht
      subst ht
      refine ⟨[], [], by simp, by simpa using hc, ?_, by simp, by simp⟩
      intro c hm
      exact hcur c (List.mem_reverse.1 hm)
  | cons c cs ih =>
    by_cases hs : isSpace c = true
    · have hrest : t ∈ fieldsAux cs [] → IsRunOf t (cur.reverse ++ c :: cs) := by
        intro h
        obtain ⟨pre, post, hl, hne, hns, hpre, hpost⟩ := ih [] (by simp) h
        simp only [List.reverse_nil, List.nil_append] at hl
        refine ⟨cur.reverse ++ c :: pre, post, by rw [hl]; simp, hne, hns, ?_, hpost⟩
        intro d hd
        cases pre with
        | nil =>
          simp at hd
          rw [← hd]
          exact hs
        | cons x xs =>
          apply hpre d
          rw [← hd, List.getLast?_append, List.getLast?_cons_cons]
          cases hx : (x :: xs).getLast? with
          | none => simp at hx
          | some y => rfl
      by_cases hc : cur = []
      · simp only [fieldsAux, hs, hc, if_true] at ht
        rw [hc]
        rw [hc] at hrest
        exact hrest ht
      · simp only [fieldsAux, hs, hc, if_true, if_false, List.mem_cons] at ht
        rcases ht with ht | ht
        · subst ht
          refine ⟨[], c :: cs, by simp, by simpa using hc, ?_, by simp, ?_⟩
          · intro d hm
            exact hcur d (List.mem_reverse.1 hm)
          · intro d hd
            simp at hd
            rw [← hd]
            exact hs
        · exact hrest ht
    · simp only [fieldsAux, hs] at ht
      have hcur2 : ∀ d ∈ c :: cur, isSpace d = false := by
        intro d hd
        rcases List.mem_cons.1 hd with rfl | hd
        · simpa using hs
        · exact hcur d hd
      have := ih (c :: cur) hcur2 ht
      simpa using this

theorem fieldsAux_after_space (pre m cur : List Char)
    (hpre : ∀ c, pre.getLast? = some c → isSpace c = true) (h0 : pre = [] → cur = []) :
    ∃ done, fieldsAux (pre ++ m) cur = done ++ fieldsAux m [] := by
  induction pre generalizing cur with
  | nil =>
    rw [h0 rfl]
    exact ⟨[], rfl⟩
  | cons d ds ih =>
    have hds : ∀ c, ds.getLast? = some c → isSpace c = true := by
      intro c hc
      cases ds with
      | nil => simp at hc
      | cons x xs =>
        apply hpre c
        rw [List.getLast?_cons_cons]
        exact hc
    by_cases hs : isSpace d = true
    · obtain ⟨done, hdone⟩ := ih [] hds (fun _ => rfl)
      by_cases hc : cur = []
      · refine ⟨done, ?_⟩
        rw [List.cons_append, fieldsAux]
        simp only [hs, hc, if_true]
        exact hdone
      · refine ⟨cur.reverse :: done, ?_⟩
        rw [List.cons_append, fieldsAux]
        simp only [hs, hc, if_true, if_false]
        rw [hdone]
        rfl
    · have hne : ds ≠ [] := by
        intro hnil
        subst hnil
        exact hs (hpre d rfl)
      obtain ⟨done, hdone⟩ := ih (d :: cur) hds (fun h => absurd h hne)
      refine ⟨done, ?_⟩
      rw [List.cons_append, fieldsAux]
      simp only [hs, Bool.false_eq_true, if_false]
      exact hdone

theorem mem_fieldsAux_run (t post : List Char) (hne : t ≠ [])
    (hns : ∀ c ∈ t, isSpace c = false)
    (hpost : ∀ c, post.head? = some c → isSpace c = true) :
    t ∈ fieldsAux (t ++ post) [] := by
  rw [fieldsAux_append_run t post [] hns, List.append_nil]
  have hrev : t.reverse ≠ [] := by simpa using hne
  cases post with
  | nil => simp [fieldsAux, hrev]
  | cons c q =>
    have hc : isSpace c = true := hpost c rfl
    simp [fieldsAux, hc, hrev]

/-- Every maximal run of characters that are not white space is a field. -/
theorem mem_fieldsAux_of_isRunOf (t l : List Char) (h : IsRunOf t l) :
    t ∈ fieldsAux l [] := by
  obtain ⟨pre, post, hl, hne, hns, hpre, hpost⟩ := h
  obtain ⟨done, hdone⟩ := fieldsAux_after_space pre (t ++ post) [] hpre (fun _ => rfl)
  rw [hl, List.append_assoc, hdone]
  exact List.mem_append_right _ (mem_fieldsAux_run t post hne hns hpost)

theorem mem_fields_iff (w v : String) : w ∈ Fields v ↔ IsTokenOf w v := by
  unfold Fields IsTokenOf
  constructor
  · intro h
    obtain ⟨l, hl, rfl⟩ := List.mem_map.1 h
    simpa using isRunOf_of_mem_fieldsAux v.data [] l (by simp) hl
  · intro h
    exact List.mem_map.2 ⟨w.data, mem_fieldsAux_of_isRunOf _ _ h, rfl⟩

/-! ## Registry order, override tokens and the trimmed tmux answer -/

/-- C3: the registry after initialization is the built-in list of eight roles
in its original order followed by the new roles (trimmed, non-empty, not built
in) in the order of their first occurrence in `MUXCODER_ROLES`; when the
variable is unset or empty the registry is exactly the built-in list.  The
segments are any comma-free strings that joined with commas give the variable,
and the trimmed form of a segment is the segment without its outer white
space. -/
theorem registry_init_order (env : Env) :
    (init env).KnownRoles =
      ["edit", "build", "test", "review", "deploy", "run", "commit", "analyze"] ++
        firstOccurrences
          ((candidateRoles (Getenv env "MUXCODER_ROLES")).filter
            (fun r => r ∉ builtinRoles)) ∧
    (UnsetOrEmpty env "MUXCODER_ROLES" → (init env).KnownRoles = builtinRoles) ∧
    (∀ segs ts : List String, segs ≠ [] → (∀ s ∈ segs, ',' ∉ s.data) →
      (Getenv env "MUXCODER_ROLES").data = List.intercalate [','] (segs.map String.data) →
      List.Forall₂ TrimmedOf ts segs →
      (init env).KnownRoles =
        ["edit", "build", "test", "review", "deploy", "run", "commit", "analyze"] ++
          firstOccurrences (ts.filter (fun r => r ≠ "" ∧ r ∉ builtinRoles))) := by
  have hmain : (init env).KnownRoles =
      ["edit", "build", "test", "review", "deploy", "run", "commit", "analyze"] ++
        firstOccurrences
          ((candidateRoles (Getenv env "MUXCODER_ROLES")).filter
            (fun r => r ∉ builtinRoles)) := by
    rw [init_knownRoles, extendRoles_eq]
    rfl
  refine ⟨hmain, ?_, ?_⟩
  · intro h
    have he : Getenv env "MUXCODER_ROLES" = "" := (getenv_eq_empty_iff _ _).2 h
    unfold init
    simp [he]
  · intro segs ts hne hseg hjoin htrim
    rw [hmain]
    unfold candidateRoles
    rw [splitComma_of_segments _ segs hne hseg hjoin, map_trimSpace_of_forall₂ ts segs htrim,
      List.filter_filter]
    congr 2
    apply List.filter_congr
    intro r _
    by_cases h1 : r = ""
    · simp [h1]
    · by_cases h2 : r ∈ builtinRoles
      · simp [h1, h2]
      · simp [h1, h2]

/-- Witness for C3: with no variable set the registry is the built-in list;
with `MUXCODER_ROLES` set to ` foo ,bar,edit,,foo, baz,bar` the roles `foo`,
`bar` and `baz` are appended once each, in that order; and with the segments
` foo` and `bar` given explicitly the roles `foo` and `bar` are appended. -/
theorem registry_init_order_witness :
    (init (fun _ => none)).KnownRoles = builtinRoles ∧
    (init (fun k => if k = "MUXCODER_ROLES" then some " foo ,bar,edit,,foo, baz,bar"
        else none)).KnownRoles =
      ["edit", "build", "test", "review", "deploy", "run", "commit", "analyze",
        "foo", "bar", "baz"] ∧
    (init (fun k => if k = "MUXCODER_ROLES" then some " foo,bar" else none)).KnownRoles =
      ["edit", "build", "test", "review", "deploy", "run", "commit", "analyze",
        "foo", "bar"] :=
  ⟨(registry_init_order (fun _ => none)).2.1 (by decide),
   (registry_init_order _).1.trans (by decide),
   ((registry_init_order _).2.2 [" foo", "bar"] ["foo", "bar"] (by decide) (by decide)
      (by decide)
      (List.Forall₂.cons (trimmedOf_trimSpace " foo")
        (List.Forall₂.cons (trimmedOf_trimSpace "bar") List.Forall₂.nil))).trans
     (by decide)⟩

/-- C4: with `MUXCODER_SPLIT_LEFT` set to a non-empty value `v`, a window is
split-left after initialization exactly when it is one of the
white-space-separated tokens of `v`, that is a maximal run of characters of `v`
that are not white space; a built-in window that is not a token yields false,
and when `v` is white space only every window yields false. -/
theorem isSplitLeft_override (env : Env) (v : String)
    (hv : env "MUXCODER_SPLIT_LEFT" = some v) (hne : v ≠ "") (w : String) :
    (IsSplitLeft (init env) w = true ↔ w ∈ Fields v) ∧
    (IsSplitLeft (init env) w = true ↔ IsTokenOf w v) ∧
    (w ∈ ["edit", "analyze", "commit"] → w ∉ Fields v →
      IsSplitLeft (init env) w = false) ∧
    ((∀ c ∈ v.data, isSpace c = true) → IsSplitLeft (init env) w = false) := by
  have hg : Getenv env "MUXCODER_SPLIT_LEFT" = v := by simp [Getenv, hv]
  have hm : (init env).splitLeftWindows = fillSplitLeft [] (Fields v) := by
    unfold init
    simp only [hg, ne_eq, hne, not_false_eq_true, if_true]
  have hiff : IsSplitLeft (init env) w = true ↔ w ∈ Fields v := by
    unfold IsSplitLeft
    rw [hm, get_fillSplitLeft]
    simp [BoolMap.get]
  refine ⟨hiff, hiff.trans (mem_fields_iff w v), ?_, ?_⟩
  · intro _ hnot
    cases hb : IsSplitLeft (init env) w with
    | false => rfl
    | true => exact absurd (hiff.1 hb) hnot
  · intro hsp
    have hF : Fields v = [] := by
      unfold Fields
      rw [fieldsAux_all_space v.data hsp]
      rfl
    cases hb : IsSplitLeft (init env) w with
    | false => rfl
    | true =>
      have := hiff.1 hb
      rw [hF] at this
      simp at this

/-- Witness for C4: with the override ` build`, tab, `test  run ` the windows
`build`, `test` and `run` are split-left and the built-in window `edit` no
longer is; with a blank override no window is. -/
theorem isSplitLeft_override_witness :
    IsSplitLeft (init (fun k => if k = "MUXCODER_SPLIT_LEFT" then some " build\ttest  run "
      else none)) "build" = true ∧
    IsSplitLeft (init (fun k => if k = "MUXCODER_SPLIT_LEFT" then some " build\ttest  run "
      else none)) "test" = true ∧
    IsSplitLeft (init (fun k => if k = "MUXCODER_SPLIT_LEFT" then some " build\ttest  run "
      else none)) "run" = true ∧
    IsSplitLeft (init (fun k => if k = "MUXCODER_SPLIT_LEFT" then some " build\ttest  run "
      else none)) "edit" = false ∧
    IsSplitLeft (init (fun k => if k = "MUXCODER_SPLIT_LEFT" then some " \t" else none))
      "edit" = false :=
  ⟨(isSplitLeft_override _ " build\ttest  run " (by decide) (by decide) "build").1.2
      (by decide),
   (isSplitLeft_override _ " build\ttest  run " (by decide) (by decide) "test").1.2
      (by decide),
   (isSplitLeft_override _ " build\ttest  run " (by decide) (by decide) "run").1.2
      (by decide),
   (isSplitLeft_override _ " build\ttest  run " (by decide) (by decide) "edit").2.2.1
      (by decide) (by decide),
   (isSplitLeft_override _ " \t" (by decide) (by decide) "edit").2.2.2 (by decide)⟩

/-- C7: `BusRole` follows the same precedence: the first non-empty value among
the `AGENT_ROLE` variable, the `BUS_ROLE` variable, the trimmed output of the
tmux query for `#W`, and the string `unknown`; with both variables unset or
empty and an output whose form without outer white space is a non-empty `t`,
the role is `t`. -/
theorem busRole_precedence (env : Env) (tmux : Tmux) :
    BusRole env tmux =
      firstNonEmpty [env "AGENT_ROLE", env "BUS_ROLE",
        (tmux (tmuxArgs env "#W")).map TrimSpace, some "unknown"] ∧
    (¬ UnsetOrEmpty env "AGENT_ROLE" →
      BusRole env tmux = Getenv env "AGENT_ROLE") ∧
    (UnsetOrEmpty env "AGENT_ROLE" → ¬ UnsetOrEmpty env "BUS_ROLE" →
      BusRole env tmux = Getenv env "BUS_ROLE") ∧
    (UnsetOrEmpty env "AGENT_ROLE" → UnsetOrEmpty env "BUS_ROLE" →
      tmuxVar env tmux "#W" ≠ "" → BusRole env tmux = tmuxVar env tmux "#W") ∧
    (UnsetOrEmpty env "AGENT_ROLE" → UnsetOrEmpty env "BUS_ROLE" →
      tmuxVar env tmux "#W" = "" → BusRole env tmux = "unknown") ∧
    (UnsetOrEmpty env "AGENT_ROLE" → UnsetOrEmpty env "BUS_ROLE" →
      ∀ out t, tmux (tmuxArgs env "#W") = some out → TrimmedOf t out →
        (t ≠ "" → BusRole env tmux = t) ∧ (t = "" → BusRole env tmux = "unknown")) := by
  refine ⟨?_, ?_, ?_, ?_, ?_, ?_⟩
  · unfold BusRole
    rw [tmuxVar_eq]
    exact layers_eq _ _ _ "unknown" (by decide)
  · intro h1
    rw [← getenv_eq_empty_iff] at h1
    unfold BusRole
    rw [if_pos h1]
  · intro h1 h2
    rw [← getenv_eq_empty_iff] at h1 h2
    unfold BusRole
    rw [if_neg (not_not.2 h1), if_pos h2]
  · intro h1 h2 h3
    rw [← getenv_eq_empty_iff] at h1 h2
    unfold BusRole
    rw [if_neg (not_not.2 h1), if_neg (not_not.2 h2), if_pos h3]
  · intro h1 h2 h3
    rw [← getenv_eq_empty_iff] at h1 h2
    unfold BusRole
    rw [if_neg (not_not.2 h1), if_neg (not_not.2 h2), if_neg (not_not.2 h3)]
  · intro h1 h2 out t hout ht
    rw [← getenv_eq_empty_iff] at h1 h2
    have hv : tmuxVar env tmux "#W" = t := by
      unfold tmuxVar
      rw [hout]
      exact trimSpace_eq_of_trimmedOf t out ht
    constructor
    · intro hne
      unfold BusRole
      rw [if_neg (not_not.2 h1), if_neg (not_not.2 h2), hv, if_pos hne]
    · intro he
      unfold BusRole
      rw [if_neg (not_not.2 h1), if_neg (not_not.2 h2), hv, if_neg (not_not.2 he)]

/-- Witness for C7: `AGENT_ROLE` wins over `BUS_ROLE`; with `AGENT_ROLE` empty
the value of `BUS_ROLE` is used; with neither set and the tmux answer
` review ` followed by a newline the role is `review`; and with a blank answer
it is `unknown`. -/
theorem busRole_precedence_witness :
    BusRole (fun k => if k = "AGENT_ROLE" then some "edit"
      else if k = "BUS_ROLE" then some "test" else none) (fun _ => none) = "edit" ∧
    BusRole (fun k => if k = "AGENT_ROLE" then some ""
      else if k = "BUS_ROLE" then some "test" else none) (fun _ => some "w") = "test" ∧
    BusRole (fun _ => none) (fun _ => some " review \n") = "review" ∧
    BusRole (fun k => if k = "BUS_ROLE" then some "" else none)
      (fun _ => some "\tbuild\n") = "build" ∧
    BusRole (fun _ => none) (fun _ => some " \n") = "unknown" :=
  ⟨(busRole_precedence _ _).2.1 (by decide),
   (busRole_precedence _ _).2.2.1 (by decide) (by decide),
   ((busRole_precedence (fun _ => none) (fun _ => some " review \n")).2.2.2.1
      (by decide) (by decide) (by decide)).trans (by decide),
   ((busRole_precedence _ (fun _ => some "\tbuild\n")).2.2.2.2.2 (by decide) (by decide)
      "\tbuild\n" "build" rfl (trimmedOf_trimSpace "\tbuild\n")).1 (by decide),
   ((busRole_precedence (fun _ => none) (fun _ => some " \n")).2.2.2.2.1
      (by decide) (by decide) (by decide))⟩

/-- C14: the argument list of the tmux command is `display-message -t p -p f`
when `TMUX_PANE` is set to a non-empty `p` and `display-message -p f` when it
is unset or empty; when the command succeeds `tmuxVar` returns its output with
leading and trailing white space removed, and nothing else removed. -/
theorem tmuxVar_arguments (env : Env) (tmux : Tmux) (format : String) :
    (∀ p, env "TMUX_PANE" = some p → p ≠ "" →
      tmuxArgs env format = ["display-message", "-t", p, "-p", format]) ∧
    (UnsetOrEmpty env "TMUX_PANE" →
      tmuxArgs env format = ["display-message", "-p", format]) ∧
    (∀ out, tmux (tmuxArgs env format) = some out →
      tmuxVar env tmux format = TrimSpace out ∧ NoOuterSpace (tmuxVar env tmux format) ∧
      TrimmedOf (tmuxVar env tmux format) out ∧
      ∀ t, TrimmedOf t out → tmuxVar env tmux format = t) := by
  refine ⟨?_, ?_, ?_⟩
  · intro p hp hne
    have hg : Getenv env "TMUX_PANE" = p := by simp [Getenv, hp]
    unfold tmuxArgs
    simp only [hg, ne_eq, hne, not_false_eq_true, if_true]
    rfl
  · intro h
    have hg : Getenv env "TMUX_PANE" = "" := (getenv_eq_empty_iff _ _).2 h
    unfold tmuxArgs
    simp only [hg, ne_eq, not_true_eq_false, if_false]
    rfl
  · intro out hout
    have hv : tmuxVar env tmux format = TrimSpace out := by
      unfold tmuxVar
      rw [hout]
    refine ⟨hv, hv ▸ trimSpace_noOuterSpace out, hv ▸ trimmedOf_trimSpace out, ?_⟩
    intro t ht
    rw [hv]
    exact trimSpace_eq_of_trimmedOf t out ht

/-- Witness for C14: the pane `%3`, no pane, and the output ` edit ` followed by
a newline, for which `tmuxVar` returns `edit`; inner white space is kept. -/
theorem tmuxVar_arguments_witness :
    tmuxArgs (fun k => if k = "TMUX_PANE" then some "%3" else none) "#W"
      = ["display-message", "-t", "%3", "-p", "#W"] ∧
    tmuxArgs (fun _ => none) "#W" = ["display-message", "-p", "#W"] ∧
    tmuxVar (fun _ => none) (fun _ => some " edit \n") "#W" = "edit" ∧
    tmuxVar (fun _ => none) (fun _ => some "\tmy window \n") "#W" = "my window" :=
  ⟨(tmuxVar_arguments _ (fun _ => none) "#W").1 "%3" (by decide) (by decide),
   (tmuxVar_arguments (fun _ => none) (fun _ => none) "#W").2.1 (by decide),
   ((tmuxVar_arguments (fun _ => none) (fun _ => some " edit \n") "#W").2.2
      " edit \n" rfl).1.trans (by decide),
   ((tmuxVar_arguments (fun _ => none) (fun _ => some "\tmy window \n") "#W").2.2
      "\tmy window \n" rfl).2.2.2 "my window" (trimmedOf_trimSpace "\tmy window \n")⟩

end Muxcoder
